import Mathlib

/-!
Verification of the retention engine (`retention.py`).

The development embeds, straight from the source:
  * timestamps as parsed by `datetime.strptime` and their comparison order,
  * the calendar arithmetic behind `datetime - timedelta(days=n)` and the
    `strftime` keys `%Y-%W` (weekly buckets) and `%Y-%m` (monthly buckets),
  * the two filename grammars of `parse_filename`,
  * the scan / daily-dedup / tiered-retention pipeline of `get_files_to_prune`,
  * the pruning executor of `main` (dry-run, delete and archive modes).
-/

/-- Timestamps as produced by `datetime.strptime`:
year, month, day, hour, minute, second. -/
structure DT where
  y : Nat
  mo : Nat
  d : Nat
  h : Nat
  mi : Nat
  s : Nat
deriving DecidableEq, Repr

/-- Python `datetime` comparison: lexicographic on the six fields. -/
def DT.Lt (a b : DT) : Prop :=
  a.y < b.y ∨ (a.y = b.y ∧ (a.mo < b.mo ∨ (a.mo = b.mo ∧ (a.d < b.d ∨ (a.d = b.d ∧
    (a.h < b.h ∨ (a.h = b.h ∧ (a.mi < b.mi ∨ (a.mi = b.mi ∧ a.s < b.s)))))))))

instance (a b : DT) : Decidable (DT.Lt a b) := by unfold DT.Lt; infer_instance

def DT.Le (a b : DT) : Prop := ¬ DT.Lt b a

instance (a b : DT) : Decidable (DT.Le a b) := by unfold DT.Le; infer_instance

/-- `datetime.min`, the default value seeding the weekly/monthly buckets. -/
def DT.min0 : DT := ⟨1, 1, 1, 0, 0, 0⟩

/-! ### Calendar arithmetic (`datetime - timedelta`, `strftime`) -/

/-- Gregorian leap year, as in Python `calendar.isleap`. -/
def isLeap (y : Nat) : Bool := (y % 4 == 0 && y % 100 != 0) || y % 400 == 0

def daysInMonth (y mo : Nat) : Nat :=
  if mo = 2 then (if isLeap y then 29 else 28)
  else if mo = 4 ∨ mo = 6 ∨ mo = 9 ∨ mo = 11 then 30 else 31

/-- The condition under which `datetime.strptime` succeeds on a
shape-correct timestamp: a real proleptic-Gregorian calendar date and a
valid time of day (`datetime` rejects day 32, hour 24, second 60, year 0, …). -/
def validDT (t : DT) : Prop :=
  1 ≤ t.y ∧ t.y ≤ 9999 ∧ 1 ≤ t.mo ∧ t.mo ≤ 12 ∧ 1 ≤ t.d ∧ t.d ≤ daysInMonth t.y t.mo ∧
  t.h ≤ 23 ∧ t.mi ≤ 59 ∧ t.s ≤ 59

instance (t : DT) : Decidable (validDT t) := by unfold validDT; infer_instance

/-- Days since 1970-01-01 of a civil date (Howard Hinnant's `days_from_civil`),
the arithmetic underlying `datetime.toordinal`/`timedelta`. -/
def toDays (y mo d : Nat) : Int :=
  let yi : Int := if mo ≤ 2 then (y : Int) - 1 else (y : Int)
  let era : Int := yi.fdiv 400
  let yoe : Int := yi - era * 400
  let mp : Int := ((mo : Int) + 9) % 12
  let doy : Int := (153 * mp + 2).fdiv 5 + (d : Int) - 1
  let doe : Int := yoe * 365 + yoe.fdiv 4 - yoe.fdiv 100 + doy
  era * 146097 + doe - 719468

/-- Civil date from days since 1970-01-01 (Hinnant's `civil_from_days`). -/
def fromDays (z0 : Int) : Nat × Nat × Nat :=
  let z : Int := z0 + 719468
  let era : Int := z.fdiv 146097
  let doe : Int := z - era * 146097
  let yoe : Int := (doe - doe.fdiv 1460 + doe.fdiv 36524 - doe.fdiv 146096).fdiv 365
  let yy : Int := yoe + era * 400
  let doy : Int := doe - (365 * yoe + yoe.fdiv 4 - yoe.fdiv 100)
  let mp : Int := (5 * doy + 2).fdiv 153
  let dd : Int := doy - (153 * mp + 2).fdiv 5 + 1
  let mm : Int := if mp < 10 then mp + 3 else mp - 9
  ((if mm ≤ 2 then yy + 1 else yy).toNat, mm.toNat, dd.toNat)

/-- `t - timedelta(days=n)`: shifts the date, keeps the time of day. -/
def subDays (t : DT) (n : Nat) : DT :=
  let r := fromDays (toDays t.y t.mo t.d - (n : Int))
  ⟨r.1, r.2.1, r.2.2, t.h, t.mi, t.s⟩

/-- Weekday with Monday = 0 … Sunday = 6 (1970-01-01 was a Thursday). -/
def weekdayMon (y mo d : Nat) : Nat := ((toDays y mo d + 3).emod 7).toNat

/-- 1-based day of the year. -/
def dayOfYear (y mo d : Nat) : Nat := (toDays y mo d - toDays y 1 1 + 1).toNat

/-- `strftime` directive `%W`: week of the year with Monday as the first day
of the week; all days before the first Monday of the year are week 0. -/
def weekW (t : DT) : Nat :=
  (dayOfYear t.y t.mo t.d + 6 - weekdayMon t.y t.mo t.d) / 7

/-- The weekly bucket key the code builds with `timestamp.strftime('%Y-%W')`:
calendar year paired with the `%W` week number. -/
def weekKey (t : DT) : Nat × Nat := (t.y, weekW t)

/-- The monthly bucket key `timestamp.strftime('%Y-%m')`: year and month. -/
def monthKey (t : DT) : Nat × Nat := (t.y, t.mo)

/-- Modelled from the spec: number of weeks (52 or 53) in an ISO 8601
week-numbering year. -/
def isoWeeks (yr : Nat) : Nat :=
  if (yr + yr / 4 - yr / 100 + yr / 400) % 7 = 4 ∨
     ((yr - 1) + (yr - 1) / 4 - (yr - 1) / 100 + (yr - 1) / 400) % 7 = 3
  then 53 else 52

/-- Modelled from the spec: the `(iso_year, iso_week_number)` pair of a
timestamp under ISO 8601 week numbering (weeks start Monday; week 1 is the
week containing the first Thursday of the year).  The spec claims the weekly
thinning bucket is this pair; the source builds `strftime('%Y-%W')` instead. -/
def isoWeekPair (t : DT) : Nat × Nat :=
  let iwd := weekdayMon t.y t.mo t.d + 1
  let w := (dayOfYear t.y t.mo t.d + 10 - iwd) / 7
  if w = 0 then (t.y - 1, isoWeeks (t.y - 1))
  else if w = 53 ∧ isoWeeks t.y = 52 then (t.y + 1, 1)
  else (t.y, w)

/-! ### Filename parsing (`parse_filename` and the two regexes) -/

/-- Digit character for a digit value (used to state round-trip facts). -/
def dch : Nat → Char
  | 0 => '0' | 1 => '1' | 2 => '2' | 3 => '3' | 4 => '4'
  | 5 => '5' | 6 => '6' | 7 => '7' | 8 => '8' | 9 => '9'
  | _ => '*'

/-- Numeric value of a digit character. -/
def c2n (c : Char) : Nat := c.toNat - 48

def val4 (a b c d : Char) : Nat := 1000 * c2n a + 100 * c2n b + 10 * c2n c + c2n d

def val2 (a b : Char) : Nat := 10 * c2n a + c2n b

/-- If `cs = pre ++ suf` for some `pre`, return it; the building block for the
anchored suffix structure of both filename regexes. -/
def stripSuffix (suf cs : List Char) : Option (List Char) :=
  if suf.length ≤ cs.length ∧ cs.drop (cs.length - suf.length) = suf
  then some (cs.take (cs.length - suf.length)) else none

def jsonSuf : List Char := ['.', 'j', 's', 'o', 'n']
def htmlSuf : List Char := ['.', 'h', 't', 'm', 'l']
def desktopTok : List Char := ['-', 'd', 'e', 's', 'k', 't', 'o', 'p', '-']
def mobileTok : List Char := ['-', 'm', 'o', 'b', 'i', 'l', 'e', '-']
def reportPre : List Char :=
  ['c', 'o', 'm', 'p', 'a', 'r', 'i', 's', 'o', 'n', '-', 'r', 'e', 'p', 'o', 'r', 't', '-']
def desktopStr : List Char := ['d', 'e', 's', 'k', 't', 'o', 'p']
def mobileStr : List Char := ['m', 'o', 'b', 'i', 'l', 'e']
def reportStr : List Char := ['r', 'e', 'p', 'o', 'r', 't']

/-- `datetime.strptime(ts, '%Y-%m-%d-%H%M%S')` on the 17-character timestamp
captured by the debug-responses regex: exact digit shape `4-2-2-6` (the six
trailing digits can only split as HH MM SS), then calendar/time validity. -/
def parseTS6L (cs : List Char) : Option DT :=
  match cs with
  | [a1, a2, a3, a4, h1, b1, b2, h2, e1, e2, h3, f1, f2, g1, g2, k1, k2] =>
    if h1 = '-' ∧ h2 = '-' ∧ h3 = '-' ∧
       a1.isDigit = true ∧ a2.isDigit = true ∧ a3.isDigit = true ∧ a4.isDigit = true ∧
       b1.isDigit = true ∧ b2.isDigit = true ∧ e1.isDigit = true ∧ e2.isDigit = true ∧
       f1.isDigit = true ∧ f2.isDigit = true ∧ g1.isDigit = true ∧ g2.isDigit = true ∧
       k1.isDigit = true ∧ k2.isDigit = true then
      let t : DT := ⟨val4 a1 a2 a3 a4, val2 b1 b2, val2 e1 e2,
                     val2 f1 f2, val2 g1 g2, val2 k1 k2⟩
      if validDT t then some t else none
    else none
  | _ => none

/-- `datetime.strptime(ts, '%Y-%m-%d-%H%M')` on the 15-character report
timestamp (no seconds; `datetime` defaults the second to 0). -/
def parseTS4L (cs : List Char) : Option DT :=
  match cs with
  | [a1, a2, a3, a4, h1, b1, b2, h2, e1, e2, h3, f1, f2, g1, g2] =>
    if h1 = '-' ∧ h2 = '-' ∧ h3 = '-' ∧
       a1.isDigit = true ∧ a2.isDigit = true ∧ a3.isDigit = true ∧ a4.isDigit = true ∧
       b1.isDigit = true ∧ b2.isDigit = true ∧ e1.isDigit = true ∧ e2.isDigit = true ∧
       f1.isDigit = true ∧ f2.isDigit = true ∧ g1.isDigit = true ∧ g2.isDigit = true then
      let t : DT := ⟨val4 a1 a2 a3 a4, val2 b1 b2, val2 e1 e2,
                     val2 f1 f2, val2 g1 g2, 0⟩
      if validDT t then some t else none
    else none
  | _ => none

/-- The debug-responses grammar
`^(?P<slug>.*?)-(?P<strategy>desktop|mobile)-(?P<timestamp>\d{4}-\d{2}-\d{2}-\d{6})\.json$`.
The timestamp and extension are a fixed-length anchored suffix, so the
strategy token and the slug (which may itself contain hyphens and may be
empty) are uniquely determined from the end of the filename. -/
def parseDebugL (cs : List Char) : Option (List Char × List Char × DT) :=
  match stripSuffix jsonSuf cs with
  | none => none
  | some core =>
    match parseTS6L (core.drop (core.length - 17)) with
    | none => none
    | some dt =>
      let rest := core.take (core.length - 17)
      match stripSuffix desktopTok rest with
      | some slug => some (slug, desktopStr, dt)
      | none =>
        match stripSuffix mobileTok rest with
        | some slug => some (slug, mobileStr, dt)
        | none => none

/-- The reports grammar
`^comparison-report-(?P<slug>.*?)-(?P<timestamp>\d{4}-\d{2}-\d{2}-\d{4})\.html$`;
the strategy is fixed to the sentinel `report`. -/
def parseReportL (cs : List Char) : Option (List Char × List Char × DT) :=
  match stripSuffix htmlSuf cs with
  | none => none
  | some core =>
    if core.take 18 = reportPre then
      let core2 := core.drop 18
      match parseTS4L (core2.drop (core2.length - 15)) with
      | none => none
      | some dt =>
        match stripSuffix ['-'] (core2.take (core2.length - 15)) with
        | some slug => some (slug, reportStr, dt)
        | none => none
    else none

/-- `parse_filename`: try the debug-responses grammar, then the reports
grammar; `none` models the `(None, None, None)` result. -/
def parseFilenameL (cs : List Char) : Option (List Char × List Char × DT) :=
  match parseDebugL cs with
  | some r => some r
  | none => parseReportL cs

/-! ### Directory scan, daily dedup and tiered retention (`get_files_to_prune`) -/

/-- A file met by `os.walk`: its full path, its bare filename, and its
filesystem modification time (`os.path.getmtime`). -/
structure FSFile where
  path : String
  name : List Char
  mtime : Int
deriving DecidableEq, Repr

/-- A recognized artifact as recorded by the scan loop. -/
structure Cand where
  path : String
  slug : List Char
  strat : List Char
  ts : DT
  mtime : Int
deriving DecidableEq, Repr

/-- The scan loop of `get_files_to_prune`: parse every filename and drop the
files for which `not all([slug, strategy, timestamp])` holds.  A parsed
strategy is a nonempty literal and a `datetime` is always truthy, so the
check bites exactly on the empty slug. -/
def scan (fs : List FSFile) : List Cand :=
  fs.filterMap fun f =>
    match parseFilenameL f.name with
    | none => none
    | some (sl, st, dt) =>
      if sl = [] ∨ st = [] then none else some ⟨f.path, sl, st, dt, f.mtime⟩

/-- The retention key `(slug, strategy, timestamp.date())`. -/
def Cand.key (c : Cand) : List Char × List Char × (Nat × Nat × Nat) :=
  (c.slug, c.strat, (c.ts.y, c.ts.mo, c.ts.d))

/-- `all_files`, in walk order. -/
def allPathsList (fs : List FSFile) : List String := (scan fs).map (fun c => c.path)

/-- First-occurrence deduplication (the distinct keys of a dict, in insertion
order; also used to model iterating a Python set of paths). -/
def dedupAux {α : Type} [DecidableEq α] (seen : List α) : List α → List α
  | [] => []
  | a :: l => if a ∈ seen then dedupAux seen l else a :: dedupAux (a :: seen) l

def dedupL {α : Type} [DecidableEq α] (l : List α) : List α := dedupAux [] l

/-- `file_group.sort(key=..., reverse=True); file_group[0]`: Python sort is
stable, so this selects the first-listed entry among those with the maximal
timestamp. -/
def firstMax : List Cand → Option Cand
  | [] => none
  | c :: l =>
    match firstMax l with
    | none => some c
    | some b => some (if DT.Lt c.ts b.ts then b else c)

/-- `files_to_keep`: one entry per retention key — the daily deduplicator. -/
def candidates (l : List Cand) : List Cand :=
  (dedupL (l.map Cand.key)).filterMap
    (fun k => firstMax (l.filter (fun c => decide (c.key = k))))

/-- Stable insertion (ascending, equal keys keep their relative order). -/
def insertM (c : Cand) : List Cand → List Cand
  | [] => [c]
  | b :: l => if c.mtime < b.mtime then c :: b :: l else b :: insertM c l

/-- `sorted(list(files_to_keep), key=os.path.getmtime)`. -/
def sortByMtime : List Cand → List Cand
  | [] => []
  | c :: l => insertM c (sortByMtime l)

/-- The mutable state of the retention loop: `final_files_to_keep` for the
recent tier, and the two defaultdicts (modelled as total functions with
default `(datetime.min, None)`, together with their key sets). -/
structure RetAcc where
  recent : List String
  weekly : (Nat × Nat) → DT × Option String
  weeklyKeys : List (Nat × Nat)
  monthly : (Nat × Nat) → DT × Option String
  monthlyKeys : List (Nat × Nat)

def initAcc : RetAcc :=
  ⟨[], fun _ => (DT.min0, none), [], fun _ => (DT.min0, none), []⟩

/-- Tier predicates: `timestamp > ninety_days_ago` keeps unconditionally,
else `timestamp > one_year_ago` goes to the weekly dict, else monthly. -/
def isRecent (rc : DT) (c : Cand) : Prop := DT.Lt rc c.ts

def isWeeklyTier (rc yc : DT) (c : Cand) : Prop := ¬ DT.Lt rc c.ts ∧ DT.Lt yc c.ts

def isMonthlyTier (rc yc : DT) (c : Cand) : Prop := ¬ DT.Lt rc c.ts ∧ ¬ DT.Lt yc c.ts

instance (rc : DT) (c : Cand) : Decidable (isRecent rc c) := by
  unfold isRecent; infer_instance

instance (rc yc : DT) (c : Cand) : Decidable (isWeeklyTier rc yc c) := by
  unfold isWeeklyTier; infer_instance

instance (rc yc : DT) (c : Cand) : Decidable (isMonthlyTier rc yc c) := by
  unfold isMonthlyTier; infer_instance

/-- One iteration of the retention loop of `get_files_to_prune`. -/
def retStep (rc yc : DT) (a : RetAcc) (c : Cand) : RetAcc :=
  if DT.Lt rc c.ts then { a with recent := a.recent ++ [c.path] }
  else if DT.Lt yc c.ts then
    let k := weekKey c.ts
    { a with
      weeklyKeys := if k ∈ a.weeklyKeys then a.weeklyKeys else a.weeklyKeys ++ [k]
      weekly :=
        if DT.Lt (a.weekly k).1 c.ts
        then fun j => if j = k then (c.ts, some c.path) else a.weekly j
        else a.weekly }
  else
    let k := monthKey c.ts
    { a with
      monthlyKeys := if k ∈ a.monthlyKeys then a.monthlyKeys else a.monthlyKeys ++ [k]
      monthly :=
        if DT.Lt (a.monthly k).1 c.ts
        then fun j => if j = k then (c.ts, some c.path) else a.monthly j
        else a.monthly }

def runRet (rc yc : DT) (l : List Cand) : RetAcc := l.foldl (retStep rc yc) initAcc

/-- `for _, file_path in dict.values(): if file_path: keep.add(file_path)`. -/
def winners (keys : List (Nat × Nat)) (m : (Nat × Nat) → DT × Option String) :
    List String :=
  (keys.filterMap (fun k => (m k).2)).filter (fun p => decide (p ≠ ""))

/-- `final_files_to_keep` of `get_files_to_prune`, as a list of paths. -/
def finalKeepList (fs : List FSFile) (rc yc : DT) : List String :=
  let a := runRet rc yc (sortByMtime (candidates (scan fs)))
  a.recent ++ winners a.weeklyKeys a.weekly ++ winners a.monthlyKeys a.monthly

def keepSet (fs : List FSFile) (rc yc : DT) : Finset String :=
  (finalKeepList fs rc yc).toFinset

def allSet (fs : List FSFile) : Finset String := (allPathsList fs).toFinset

/-- `return set(all_files) - final_files_to_keep`. -/
def pruneSet (fs : List FSFile) (rc yc : DT) : Finset String :=
  allSet fs \ keepSet fs rc yc

/-! ### The pruning executor (`main`) -/

/-- The filesystem as the executor sees it: the scanned tree plus the zip
archive (`none` = the archive file does not exist; `some entries` = it exists
and holds the listed basenames). -/
structure World where
  files : List FSFile
  archive : Option (List (List Char))
deriving DecidableEq, Repr

/-- One log line of the executor (per-file lines only). -/
inductive LogLine where
  | wouldDelete (p : String)
  | deleted (p : String)
  | archivedRemoved (p : String)
  | notFound (p : String)
  | errLine (p : String)
deriving DecidableEq, Repr

/-- The paths the log presents as removed (or, in a dry run, to-be-removed). -/
def removalReport (log : List LogLine) : List String :=
  log.filterMap fun e =>
    match e with
    | .wouldDelete p => some p
    | .deleted p => some p
    | .archivedRemoved p => some p
    | _ => none

/-- `os.path.basename`. -/
def baseName (p : String) : List Char :=
  p.data.foldl (fun acc c => if c = '/' then [] else acc ++ [c]) []

def existsB (w : World) (p : String) : Bool := w.files.any (fun f => f.path == p)

def removePath (fs : List FSFile) (p : String) : List FSFile :=
  fs.filter (fun f => f.path != p)

/-- One iteration of the delete loop: in a dry run only log; otherwise
`os.remove`, turning `FileNotFoundError` into a warning. -/
def deleteStep (dry : Bool) (w : World) (p : String) : World × List LogLine :=
  if dry then (w, [.wouldDelete p])
  else if existsB w p then ({ w with files := removePath w.files p }, [.deleted p])
  else (w, [.notFound p])

/-- One iteration of the archive loop (`fails p` models `zf.write` raising a
non-`FileNotFoundError` exception for that file): the source file is removed
only on the success path, after its basename went into the archive. -/
def archStep (fails : String → Bool) (w : World) (p : String) : World × List LogLine :=
  if existsB w p then
    if fails p then (w, [.errLine p])
    else ({ files := removePath w.files p,
            archive := some ((w.archive.getD []) ++ [baseName p]) },
          [.archivedRemoved p])
  else (w, [.notFound p])

def runDelete (dry : Bool) (w : World) (ps : List String) : World × List LogLine :=
  ps.foldl (fun acc p => let r := deleteStep dry acc.1 p; (r.1, acc.2 ++ r.2)) (w, [])

/-- The archive branch of `main`: `zipfile.ZipFile(name, 'a')` is opened
before the loop — creating the archive file when absent even in a dry run —
and in a dry run the loop body is skipped entirely (nothing is logged
per file). -/
def runArchive (dry : Bool) (fails : String → Bool) (w : World) (ps : List String) :
    World × List LogLine :=
  let w0 : World := { w with archive := some (w.archive.getD []) }
  ps.foldl
    (fun acc p => if dry then acc else let r := archStep fails acc.1 p; (r.1, acc.2 ++ r.2))
    (w0, [])

/-- Iterating the Python set `files_to_prune` (paths, each once). -/
def pruneListOf (fs : List FSFile) (rc yc : DT) : List String :=
  (dedupL (allPathsList fs)).filter (fun p => decide (p ∉ keepSet fs rc yc))

/-- `main` after argument parsing: compute the prune set, return untouched
when it is empty, else run the archive or delete loop. -/
def runMain (dry archMode : Bool) (fails : String → Bool) (rc yc : DT) (w : World) :
    World × List LogLine :=
  let ps := pruneListOf w.files rc yc
  if ps.isEmpty then (w, [])
  else if archMode then runArchive dry fails w ps
  else runDelete dry w ps

/-! ### Auxiliary definitions used to state the properties -/

/-- Zero-padded decimal digits, used to describe the filename convention
`<slug>-<strategy>-<YYYY-MM-DD-HHMMSS>.json` when quantifying over
timestamps. -/
def pad4 (n : Nat) : List Char :=
  [dch (n / 1000 % 10), dch (n / 100 % 10), dch (n / 10 % 10), dch (n % 10)]

def pad2 (n : Nat) : List Char := [dch (n / 10 % 10), dch (n % 10)]

/-- The canonical 17-character timestamp `YYYY-MM-DD-HHMMSS` of a timestamp. -/
def fmtTS6 (t : DT) : List Char :=
  pad4 t.y ++ ['-'] ++ pad2 t.mo ++ ['-'] ++ pad2 t.d ++ ['-'] ++
  pad2 t.h ++ pad2 t.mi ++ pad2 t.s

/-- The value a retention defaultdict slot takes after a list of updates:
`if timestamp > slot[0]: slot = (timestamp, path)` folded over the entries. -/
def bestW (p : DT × Option String) (l : List Cand) : DT × Option String :=
  l.foldl (fun cur c => if DT.Lt cur.1 c.ts then (c.ts, some c.path) else cur) p

/-- `c` is a most-recent entry of its weekly bucket among `cands`. -/
def WeeklyMax (rc yc : DT) (cands : List Cand) (c : Cand) : Prop :=
  isWeeklyTier rc yc c ∧
  ∀ x ∈ cands, isWeeklyTier rc yc x → weekKey x.ts = weekKey c.ts → DT.Le x.ts c.ts

/-- `c` is a most-recent entry of its monthly bucket among `cands`. -/
def MonthlyMax (rc yc : DT) (cands : List Cand) (c : Cand) : Prop :=
  isMonthlyTier rc yc c ∧
  ∀ x ∈ cands, isMonthlyTier rc yc x → monthKey x.ts = monthKey c.ts → DT.Le x.ts c.ts

/-! ### Concrete example data (used to exercise the theorems) -/

/-- A reference current moment for concrete runs: 2021-06-01 00:00:00. -/
def nowW : DT := ⟨2021, 6, 1, 0, 0, 0⟩

/-- `now - timedelta(days=90)` for the reference moment (= 2021-03-03). -/
def rcW : DT := subDays nowW 90

/-- `now - timedelta(days=365)` for the reference moment (= 2020-06-01). -/
def ycW : DT := subDays nowW 365

def fileRecent1 : FSFile :=
  ⟨"dir/alpha-desktop-2021-05-01-100000.json",
   ('a' :: "lpha-desktop-2021-05-01-100000.json".data), 1⟩

def fileRecent2 : FSFile :=
  ⟨"dir/alpha-desktop-2021-05-01-110000.json",
   ('a' :: "lpha-desktop-2021-05-01-110000.json".data), 2⟩

def fileWeek1 : FSFile :=
  ⟨"dir/beta-desktop-2021-01-05-120000.json",
   ('b' :: "eta-desktop-2021-01-05-120000.json".data), 3⟩

def fileWeek2 : FSFile :=
  ⟨"dir/gamma-mobile-2021-01-07-130000.json",
   ('g' :: "amma-mobile-2021-01-07-130000.json".data), 4⟩

def fileIso1 : FSFile :=
  ⟨"dir/beta-desktop-2020-12-31-120000.json",
   ('b' :: "eta-desktop-2020-12-31-120000.json".data), 3⟩

def fileIso2 : FSFile :=
  ⟨"dir/gamma-desktop-2021-01-01-120000.json",
   ('g' :: "amma-desktop-2021-01-01-120000.json".data), 4⟩

def fileMonth : FSFile :=
  ⟨"dir/delta-mobile-2019-05-05-120000.json",
   ('d' :: "elta-mobile-2019-05-05-120000.json".data), 5⟩

def fileOther : FSFile := ⟨"dir/readme.txt", ('r' :: "eadme.txt".data), 6⟩

def fileBadDay : FSFile :=
  ⟨"dir/alpha-desktop-2024-01-32-120000.json",
   ('a' :: "lpha-desktop-2024-01-32-120000.json".data), 7⟩

/-- A directory exercising daily dedup, all three tiers and an ignored file. -/
def treeW : List FSFile :=
  [fileRecent1, fileRecent2, fileWeek1, fileWeek2, fileMonth, fileOther]

def dupName : List Char := ('x' :: "-desktop-2024-01-15-100000.json".data)

def dupA : FSFile := ⟨"a/x-desktop-2024-01-15-100000.json", dupName, 1⟩

def dupB : FSFile := ⟨"b/x-desktop-2024-01-15-100000.json", dupName, 2⟩

/-! ### Basic facts about the timestamp order -/

theorem DT.Lt.irrefl (a : DT) : ¬ DT.Lt a a := by
  unfold DT.Lt; omega

theorem DT.Lt_trans {a b c : DT} (h1 : DT.Lt a b) (h2 : DT.Lt b c) : DT.Lt a c := by
  unfold DT.Lt at *; omega

theorem DT.lt_or_eq_of_not_lt {a b : DT} (h : ¬ DT.Lt a b) : DT.Lt b a ∨ a = b := by
  cases a; cases b
  simp only [DT.Lt, DT.mk.injEq] at *
  omega

theorem DT.Lt.asymm {a b : DT} (h : DT.Lt a b) : ¬ DT.Lt b a := by
  unfold DT.Lt at *; omega

theorem DT.Le.rfl {a : DT} : DT.Le a a := DT.Lt.irrefl a

theorem DT.Le_trans {a b c : DT} (h1 : DT.Le a b) (h2 : DT.Le b c) : DT.Le a c := by
  unfold DT.Le DT.Lt at *; omega

theorem DT.Lt_of_Lt_of_Le {a b c : DT} (h1 : DT.Lt a b) (h2 : DT.Le b c) : DT.Lt a c := by
  unfold DT.Le DT.Lt at *; omega

theorem DT.Lt_of_Le_of_Lt {a b c : DT} (h1 : DT.Le a b) (h2 : DT.Lt b c) : DT.Lt a c := by
  unfold DT.Le DT.Lt at *; omega

theorem DT.Le_of_Lt {a b : DT} (h : DT.Lt a b) : DT.Le a b := DT.Lt.asymm h

theorem DT.min0_Le {t : DT} (h : validDT t) : DT.Le DT.min0 t := by
  rcases t with ⟨y, mo, d, hh, mi, s⟩
  simp only [validDT] at h
  simp only [DT.Le, DT.Lt, DT.min0]
  omega

/-! ### Digit and suffix helpers -/

theorem dch_isDigit {k : Nat} (h : k < 10) : (dch k).isDigit = true := by
  interval_cases k <;> decide

theorem c2n_dch {k : Nat} (h : k < 10) : c2n (dch k) = k := by
  interval_cases k <;> decide

theorem stripSuffix_append (suf pre : List Char) :
    stripSuffix suf (pre ++ suf) = some pre := by
  unfold stripSuffix
  rw [if_pos]
  · rw [List.length_append, Nat.add_sub_cancel, List.take_left]
  · constructor
    · simp [List.length_append]
    · rw [List.length_append, Nat.add_sub_cancel, List.drop_left]

theorem stripSuffix_eq_some {suf cs pre : List Char}
    (h : stripSuffix suf cs = some pre) : cs = pre ++ suf := by
  unfold stripSuffix at h
  split at h
  · rename_i hc
    obtain ⟨-, hdrop⟩ := hc
    cases h
    conv_lhs => rw [← List.take_append_drop (cs.length - suf.length) cs]
    rw [hdrop]
  · cases h

/-! ### Deduplication and selection helpers -/

theorem mem_dedupAux {α : Type} [DecidableEq α] {a : α} :
    ∀ {l seen : List α}, a ∈ dedupAux seen l ↔ a ∈ l ∧ a ∉ seen := by
  intro l
  induction l with
  | nil => intro seen; simp [dedupAux]
  | cons b l ih =>
    intro seen
    by_cases hb : b ∈ seen
    · rw [dedupAux, if_pos hb, ih]
      constructor
      · rintro ⟨h1, h2⟩; exact ⟨List.mem_cons_of_mem _ h1, h2⟩
      · rintro ⟨h1, h2⟩
        rcases List.mem_cons.1 h1 with rfl | h1
        · exact absurd hb h2
        · exact ⟨h1, h2⟩
    · rw [dedupAux, if_neg hb]
      rw [List.mem_cons, ih]
      constructor
      · rintro (rfl | ⟨h1, h2⟩)
        · exact ⟨List.mem_cons_self _ _, hb⟩
        · refine ⟨List.mem_cons_of_mem _ h1, fun hs => h2 (List.mem_cons_of_mem _ hs)⟩
      · rintro ⟨h1, h2⟩
        rcases List.mem_cons.1 h1 with rfl | h1
        · exact Or.inl rfl
        · by_cases hab : a = b
          · exact Or.inl hab
          · exact Or.inr ⟨h1, fun hs => by
              rcases List.mem_cons.1 hs with h | h
              · exact hab h
              · exact h2 h⟩

theorem mem_dedupL {α : Type} [DecidableEq α] {a : α} {l : List α} :
    a ∈ dedupL l ↔ a ∈ l := by
  unfold dedupL
  rw [mem_dedupAux]
  simp

theorem dedupAux_eq_self {α : Type} [DecidableEq α] :
    ∀ {l seen : List α}, l.Nodup → (∀ a ∈ l, a ∉ seen) → dedupAux seen l = l := by
  intro l
  induction l with
  | nil => intro seen _ _; rfl
  | cons b l ih =>
    intro seen hnd hseen
    rw [dedupAux, if_neg (hseen b (List.mem_cons_self _ _))]
    congr 1
    refine ih (List.nodup_cons.1 hnd).2 ?_
    intro a ha hs
    rcases List.mem_cons.1 hs with rfl | hs
    · exact (List.nodup_cons.1 hnd).1 ha
    · exact hseen a (List.mem_cons_of_mem _ ha) hs

theorem dedupL_eq_self {α : Type} [DecidableEq α] {l : List α} (h : l.Nodup) :
    dedupL l = l :=
  dedupAux_eq_self h (by simp)

theorem nodup_dedupAux {α : Type} [DecidableEq α] :
    ∀ {l seen : List α}, (dedupAux seen l).Nodup := by
  intro l
  induction l with
  | nil => intro seen; exact List.nodup_nil
  | cons b l ih =>
    intro seen
    rw [dedupAux]
    split
    · exact ih
    · rw [List.nodup_cons]
      refine ⟨fun hb => ?_, ih⟩
      exact ((mem_dedupAux).1 hb).2 (List.mem_cons_self _ _)

theorem nodup_dedupL {α : Type} [DecidableEq α] {l : List α} : (dedupL l).Nodup :=
  nodup_dedupAux

theorem filter_eq_single {α : Type} {p : α → Bool} {l : List α} {c : α}
    (hc : c ∈ l) (hp : p c = true) (huniq : ∀ x ∈ l, p x = true → x = c)
    (hnd : l.Nodup) : l.filter p = [c] := by
  induction l with
  | nil => cases hc
  | cons b l ih =>
    rcases List.mem_cons.1 hc with rfl | hc
    · rw [List.filter_cons_of_pos hp]
      have : l.filter p = [] := by
        rw [List.filter_eq_nil_iff]
        intro x hx hpx
        have := huniq x (List.mem_cons_of_mem _ hx) hpx
        subst this
        exact (List.nodup_cons.1 hnd).1 hx
      rw [this]
    · have hbc : b ≠ c := by
        rintro rfl
        exact (List.nodup_cons.1 hnd).1 hc
      have hbp : p b = false := by
        by_contra hb
        exact hbc (huniq b (List.mem_cons_self _ _) (by simpa using hb))
      rw [List.filter_cons_of_neg (by simp [hbp])]
      exact ih hc (fun x hx hpx => huniq x (List.mem_cons_of_mem _ hx) hpx)
        (List.nodup_cons.1 hnd).2

theorem firstMax_isSome {c : Cand} {l : List Cand} : (firstMax (c :: l)).isSome := by
  rw [firstMax]
  cases firstMax l <;> simp

/-- `firstMax` returns an element that is maximal for the timestamp order and
is the first such element of the list: everything before it is strictly
older. -/
theorem firstMax_spec : ∀ {g : List Cand} {c : Cand}, firstMax g = some c →
    (∀ x ∈ g, DT.Le x.ts c.ts) ∧
    ∃ g1 g2, g = g1 ++ c :: g2 ∧ ∀ x ∈ g1, DT.Lt x.ts c.ts := by
  intro g
  induction g with
  | nil => intro c h; cases h
  | cons b g ih =>
    intro c h
    rw [firstMax] at h
    rcases hg : firstMax g with _ | d
    · rw [hg] at h
      dsimp only at h
      cases h
      have hgnil : g = [] := by
        cases g with
        | nil => rfl
        | cons e g => exact absurd hg (by have := @firstMax_isSome e g; simp_all)
      subst hgnil
      refine ⟨?_, [], [], rfl, by simp⟩
      intro x hx
      rcases List.mem_cons.1 hx with rfl | hx
      · exact DT.Le.rfl
      · cases hx
    · rw [hg] at h
      dsimp only at h
      obtain ⟨hub, g1, g2, hsplit, hstrict⟩ := ih hg
      by_cases hbd : DT.Lt b.ts d.ts
      · rw [if_pos hbd] at h
        cases h
        refine ⟨?_, b :: g1, g2, by simp [hsplit], ?_⟩
        · intro x hx
          rcases List.mem_cons.1 hx with rfl | hx
          · exact DT.Le_of_Lt hbd
          · exact hub x hx
        · intro x hx
          rcases List.mem_cons.1 hx with rfl | hx
          · exact hbd
          · exact hstrict x hx
      · rw [if_neg hbd] at h
        cases h
        refine ⟨?_, [], g, rfl, by simp⟩
        intro x hx
        rcases List.mem_cons.1 hx with rfl | hx
        · exact DT.Le.rfl
        · exact DT.Le_trans (hub x hx) hbd

/-- Membership in the deduplicated candidate list. -/
theorem cand_mem {l : List Cand} {c : Cand} (h : c ∈ candidates l) :
    c ∈ l ∧ firstMax (l.filter (fun x => decide (x.key = c.key))) = some c := by
  unfold candidates at h
  obtain ⟨k, -, hk⟩ := List.mem_filterMap.1 h
  obtain ⟨-, g1, g2, hsplit, -⟩ := firstMax_spec hk
  have hcf : c ∈ l.filter (fun x => decide (x.key = k)) := by
    rw [hsplit]; exact List.mem_append_right _ (List.mem_cons_self _ _)
  have hkey : c.key = k := by
    have := List.of_mem_filter hcf
    simpa using this
  subst hkey
  exact ⟨List.mem_of_mem_filter hcf, hk⟩

/-- Two deduplicated candidates with the same retention key are equal. -/
theorem cand_key_inj {l : List Cand} {c d : Cand} (hc : c ∈ candidates l)
    (hd : d ∈ candidates l) (hk : c.key = d.key) : c = d := by
  obtain ⟨-, hc2⟩ := cand_mem hc
  obtain ⟨-, hd2⟩ := cand_mem hd
  rw [hk] at hc2
  rw [hc2] at hd2
  exact Option.some.inj hd2

/-- A `filterMap` that maps every member to itself is the identity. -/
theorem filterMap_id_of {α : Type} {g : α → Option α} :
    ∀ {l : List α}, (∀ c ∈ l, g c = some c) → l.filterMap g = l := by
  intro l
  induction l with
  | nil => intro _; rfl
  | cons b l ih =>
    intro h
    rw [List.filterMap_cons, h b (List.mem_cons_self _ _),
      ih (fun c hc => h c (List.mem_cons_of_mem _ hc))]

/-- Over a list whose retention keys are pairwise distinct, daily dedup is the
identity. -/
theorem candidates_eq_self {l : List Cand} (hnd : (l.map Cand.key).Nodup)
    (hl : l.Nodup) : candidates l = l := by
  unfold candidates
  rw [dedupL_eq_self hnd, List.filterMap_map]
  refine filterMap_id_of ?_
  intro c hc
  have hfil : l.filter (fun x => decide (x.key = c.key)) = [c] := by
    refine filter_eq_single hc (by simp) ?_ hl
    intro x hx hpx
    exact List.inj_on_of_nodup_map hnd hx hc (by simpa using hpx)
  simp only [Function.comp, hfil, firstMax]

/-! ### Scan lemmas -/

theorem scan_mem {fs : List FSFile} {c : Cand} :
    c ∈ scan fs ↔ ∃ f ∈ fs, parseFilenameL f.name = some (c.slug, c.strat, c.ts) ∧
      c.slug ≠ [] ∧ c.strat ≠ [] ∧ c.path = f.path ∧ c.mtime = f.mtime := by
  unfold scan
  rw [List.mem_filterMap]
  constructor
  · rintro ⟨f, hf, hsome⟩
    rcases hp : parseFilenameL f.name with _ | ⟨sl, st, dt⟩
    · rw [hp] at hsome; cases hsome
    · rw [hp] at hsome
      dsimp only at hsome
      split at hsome
      · cases hsome
      · rename_i hcond
        cases hsome
        push_neg at hcond
        exact ⟨f, hf, by rw [hp], hcond.1, hcond.2, rfl, rfl⟩
  · rintro ⟨f, hf, hp, hsl, hst, hpath, hmt⟩
    refine ⟨f, hf, ?_⟩
    rw [hp]
    dsimp only
    rw [if_neg (by tauto)]
    cases c
    simp_all

theorem scan_paths_sublist (fs : List FSFile) :
    ((scan fs).map Cand.path).Sublist (fs.map FSFile.path) := by
  induction fs with
  | nil => simp [scan]
  | cons f l ih =>
    unfold scan at ih ⊢
    rw [List.filterMap_cons]
    rcases hp : parseFilenameL f.name with _ | ⟨sl, st, dt⟩
    · dsimp only
      rw [List.map_cons]
      exact ih.cons _
    · dsimp only
      by_cases hc : sl = [] ∨ st = []
      · rw [if_pos hc]
        dsimp only
        rw [List.map_cons]
        exact ih.cons _
      · rw [if_neg hc]
        dsimp only
        rw [List.map_cons, List.map_cons]
        exact ih.cons₂ _

theorem scan_filter (fs : List FSFile) (pb : String → Bool) :
    scan (fs.filter (fun f => pb f.path)) =
      (scan fs).filter (fun c => pb c.path) := by
  induction fs with
  | nil => simp [scan]
  | cons f l ih =>
    rw [List.filter_cons]
    by_cases hpf : pb f.path
    · rw [if_pos hpf]
      unfold scan at ih ⊢
      rw [List.filterMap_cons, List.filterMap_cons]
      rcases hp : parseFilenameL f.name with _ | ⟨sl, st, dt⟩
      · dsimp only
        exact ih
      · dsimp only
        by_cases hc : sl = [] ∨ st = []
        · rw [if_pos hc]
          dsimp only
          exact ih
        · rw [if_neg hc]
          dsimp only
          rw [List.filter_cons_of_pos (by simpa using hpf)]
          rw [ih]
    · rw [if_neg hpf]
      unfold scan at ih ⊢
      rw [List.filterMap_cons]
      rcases hp : parseFilenameL f.name with _ | ⟨sl, st, dt⟩
      · dsimp only
        exact ih
      · dsimp only
        by_cases hc : sl = [] ∨ st = []
        · rw [if_pos hc]
          dsimp only
          exact ih
        · rw [if_neg hc]
          dsimp only
          rw [List.filter_cons_of_neg (by simpa using hpf)]
          exact ih

/-! ### Behavior of a retention dict slot (`bestW`) -/

theorem bestW_cons (p : DT × Option String) (c : Cand) (l : List Cand) :
    bestW p (c :: l) = bestW (if DT.Lt p.1 c.ts then (c.ts, some c.path) else p) l := rfl

theorem bestW_le : ∀ {l : List Cand} {p : DT × Option String},
    DT.Le p.1 (bestW p l).1 ∧ ∀ c ∈ l, DT.Le c.ts (bestW p l).1 := by
  intro l
  induction l with
  | nil => intro p; exact ⟨DT.Le.rfl, by simp⟩
  | cons c l ih =>
    intro p
    rw [bestW_cons]
    by_cases hp : DT.Lt p.1 c.ts
    · rw [if_pos hp]
      obtain ⟨h1, h2⟩ := @ih (c.ts, some c.path)
      refine ⟨DT.Le_trans (DT.Le_of_Lt hp) h1, ?_⟩
      intro x hx
      rcases List.mem_cons.1 hx with rfl | hx
      · exact h1
      · exact h2 x hx
    · rw [if_neg hp]
      obtain ⟨h1, h2⟩ := @ih p
      refine ⟨h1, ?_⟩
      intro x hx
      rcases List.mem_cons.1 hx with rfl | hx
      · exact DT.Le_trans hp h1
      · exact h2 x hx

theorem bestW_cases : ∀ {l : List Cand} {p : DT × Option String},
    bestW p l = p ∨ ∃ c ∈ l, bestW p l = (c.ts, some c.path) ∧ DT.Lt p.1 c.ts := by
  intro l
  induction l with
  | nil => intro p; exact Or.inl rfl
  | cons c l ih =>
    intro p
    rw [bestW_cons]
    by_cases hp : DT.Lt p.1 c.ts
    · rw [if_pos hp]
      rcases @ih (c.ts, some c.path) with h | ⟨d, hd, hh, hlt⟩
      · exact Or.inr ⟨c, List.mem_cons_self _ _, h, hp⟩
      · exact Or.inr ⟨d, List.mem_cons_of_mem _ hd, hh, DT.Lt_trans hp hlt⟩
    · rw [if_neg hp]
      rcases @ih p with h | ⟨d, hd, hh, hlt⟩
      · exact Or.inl h
      · exact Or.inr ⟨d, List.mem_cons_of_mem _ hd, hh, hlt⟩

theorem bestW_keep : ∀ {l : List Cand} {p : DT × Option String},
    (∀ c ∈ l, DT.Le c.ts p.1) → bestW p l = p := by
  intro l
  induction l with
  | nil => intro p _; rfl
  | cons c l ih =>
    intro p h
    rw [bestW_cons, if_neg (h c (List.mem_cons_self _ _))]
    exact ih (fun x hx => h x (List.mem_cons_of_mem _ hx))

theorem bestW_strictmax : ∀ {l : List Cand} {p : DT × Option String} {c : Cand},
    c ∈ l → DT.Lt p.1 c.ts → (∀ x ∈ l, x = c ∨ DT.Lt x.ts c.ts) →
    bestW p l = (c.ts, some c.path) := by
  intro l
  induction l with
  | nil => intro p c h; cases h
  | cons b l ih =>
    intro p c hc hp hall
    rw [bestW_cons]
    by_cases hbc : b = c
    · subst hbc
      rw [if_pos hp]
      refine bestW_keep ?_
      intro x hx
      rcases hall x (List.mem_cons_of_mem _ hx) with rfl | hlt
      · exact DT.Le.rfl
      · exact DT.Le_of_Lt hlt
    · have hbl : DT.Lt b.ts c.ts := by
        rcases hall b (List.mem_cons_self _ _) with rfl | h
        · exact absurd rfl hbc
        · exact h
      have hcl : c ∈ l := by
        rcases List.mem_cons.1 hc with rfl | h
        · exact absurd rfl hbc
        · exact h
      have hall2 : ∀ x ∈ l, x = c ∨ DT.Lt x.ts c.ts :=
        fun x hx => hall x (List.mem_cons_of_mem _ hx)
      by_cases hp2 : DT.Lt p.1 b.ts
      · rw [if_pos hp2]
        exact ih hcl hbl hall2
      · rw [if_neg hp2]
        exact ih hcl hp hall2

/-! ### Characterizing the retention loop -/

theorem retStep_recent_pos {rc yc : DT} {a : RetAcc} {c : Cand}
    (h : DT.Lt rc c.ts) : retStep rc yc a c = { a with recent := a.recent ++ [c.path] } := by
  unfold retStep
  rw [if_pos h]

theorem retStep_recent_of_not {rc yc : DT} {a : RetAcc} {c : Cand}
    (h : ¬ DT.Lt rc c.ts) : (retStep rc yc a c).recent = a.recent := by
  unfold retStep
  rw [if_neg h]
  split <;> rfl

theorem retStep_weekly_of_recent {rc yc : DT} {a : RetAcc} {c : Cand}
    (h : DT.Lt rc c.ts) : (retStep rc yc a c).weekly = a.weekly ∧
      (retStep rc yc a c).weeklyKeys = a.weeklyKeys := by
  rw [retStep_recent_pos h]
  exact ⟨rfl, rfl⟩

theorem retStep_weekly_of_monthly {rc yc : DT} {a : RetAcc} {c : Cand}
    (h1 : ¬ DT.Lt rc c.ts) (h2 : ¬ DT.Lt yc c.ts) :
    (retStep rc yc a c).weekly = a.weekly ∧
      (retStep rc yc a c).weeklyKeys = a.weeklyKeys := by
  unfold retStep
  rw [if_neg h1, if_neg h2]
  exact ⟨rfl, rfl⟩

theorem retStep_monthly_of_not {rc yc : DT} {a : RetAcc} {c : Cand}
    (h : ¬ (¬ DT.Lt rc c.ts ∧ ¬ DT.Lt yc c.ts)) :
    (retStep rc yc a c).monthly = a.monthly ∧
      (retStep rc yc a c).monthlyKeys = a.monthlyKeys := by
  unfold retStep
  by_cases h1 : DT.Lt rc c.ts
  · rw [if_pos h1]; exact ⟨rfl, rfl⟩
  · have h2 : DT.Lt yc c.ts := by
      by_contra h2
      exact h ⟨h1, h2⟩
    rw [if_neg h1, if_pos h2]
    exact ⟨rfl, rfl⟩

theorem runRet_recent (rc yc : DT) :
    ∀ (l : List Cand) (a : RetAcc),
      (l.foldl (retStep rc yc) a).recent =
        a.recent ++ (l.filter (fun c => decide (isRecent rc c))).map Cand.path := by
  intro l
  induction l with
  | nil => intro a; simp
  | cons c l ih =>
    intro a
    rw [List.foldl_cons, ih]
    by_cases hr : DT.Lt rc c.ts
    · rw [List.filter_cons_of_pos (by simpa [isRecent] using hr)]
      rw [retStep_recent_pos hr]
      simp [List.append_assoc]
    · rw [List.filter_cons_of_neg (by simpa [isRecent] using hr)]
      rw [retStep_recent_of_not hr]

theorem runRet_weekly (rc yc : DT) (j : Nat × Nat) :
    ∀ (l : List Cand) (a : RetAcc),
      (l.foldl (retStep rc yc) a).weekly j =
        bestW (a.weekly j)
          (l.filter (fun c => decide (isWeeklyTier rc yc c ∧ weekKey c.ts = j))) := by
  intro l
  induction l with
  | nil => intro a; rfl
  | cons c l ih =>
    intro a
    rw [List.foldl_cons, ih]
    by_cases h1 : DT.Lt rc c.ts
    · rw [List.filter_cons_of_neg (by simp [isWeeklyTier, h1])]
      rw [(retStep_weekly_of_recent h1).1]
    · by_cases h2 : DT.Lt yc c.ts
      · by_cases h3 : weekKey c.ts = j
        · rw [List.filter_cons_of_pos (by simp [isWeeklyTier, h1, h2, h3]),
            bestW_cons]
          congr 1
          unfold retStep
          rw [if_neg h1, if_pos h2]
          dsimp only
          simp only [h3]
          by_cases h4 : DT.Lt (a.weekly j).1 c.ts
          · rw [if_pos h4, if_pos h4, if_pos rfl]
          · rw [if_neg h4, if_neg h4]
        · rw [List.filter_cons_of_neg (by simp [isWeeklyTier, h3])]
          congr 1
          unfold retStep
          rw [if_neg h1, if_pos h2]
          dsimp only
          by_cases h4 : DT.Lt (a.weekly (weekKey c.ts)).1 c.ts
          · rw [if_pos h4, if_neg (fun hj => h3 hj.symm)]
          · rw [if_neg h4]
      · rw [List.filter_cons_of_neg (by simp [isWeeklyTier, h2])]
        rw [(retStep_weekly_of_monthly h1 h2).1]

theorem runRet_weeklyKeys (rc yc : DT) (j : Nat × Nat) :
    ∀ (l : List Cand) (a : RetAcc),
      j ∈ (l.foldl (retStep rc yc) a).weeklyKeys ↔
        j ∈ a.weeklyKeys ∨ ∃ c ∈ l, isWeeklyTier rc yc c ∧ weekKey c.ts = j := by
  intro l
  induction l with
  | nil => intro a; simp
  | cons c l ih =>
    intro a
    rw [List.foldl_cons, ih]
    by_cases h1 : DT.Lt rc c.ts
    · rw [(retStep_weekly_of_recent h1).2]
      constructor
      · rintro (h | h)
        · exact Or.inl h
        · exact Or.inr (by
            obtain ⟨d, hd, hw, hk⟩ := h
            exact ⟨d, List.mem_cons_of_mem _ hd, hw, hk⟩)
      · rintro (h | ⟨d, hd, hw, hk⟩)
        · exact Or.inl h
        · rcases List.mem_cons.1 hd with rfl | hd
          · exact absurd h1 hw.1
          · exact Or.inr ⟨d, hd, hw, hk⟩
    · by_cases h2 : DT.Lt yc c.ts
      · have hkeys : (retStep rc yc a c).weeklyKeys =
            if weekKey c.ts ∈ a.weeklyKeys then a.weeklyKeys
            else a.weeklyKeys ++ [weekKey c.ts] := by
          unfold retStep
          rw [if_neg h1, if_pos h2]
        rw [hkeys]
        have hmem : ∀ (ks : List (Nat × Nat)),
            (j ∈ if weekKey c.ts ∈ ks then ks else ks ++ [weekKey c.ts]) ↔
              j ∈ ks ∨ j = weekKey c.ts := by
          intro ks
          split
          · rename_i hin
            constructor
            · exact Or.inl
            · rintro (h | rfl)
              · exact h
              · exact hin
          · rw [List.mem_append, List.mem_singleton]
        rw [hmem]
        constructor
        · rintro ((h | rfl) | ⟨d, hd, hw, hk⟩)
          · exact Or.inl h
          · exact Or.inr ⟨c, List.mem_cons_self _ _, ⟨h1, h2⟩, rfl⟩
          · exact Or.inr ⟨d, List.mem_cons_of_mem _ hd, hw, hk⟩
        · rintro (h | ⟨d, hd, hw, hk⟩)
          · exact Or.inl (Or.inl h)
          · rcases List.mem_cons.1 hd with rfl | hd
            · exact Or.inl (Or.inr hk.symm)
            · exact Or.inr ⟨d, hd, hw, hk⟩
      · rw [(retStep_weekly_of_monthly h1 h2).2]
        constructor
        · rintro (h | ⟨d, hd, hw, hk⟩)
          · exact Or.inl h
          · exact Or.inr ⟨d, List.mem_cons_of_mem _ hd, hw, hk⟩
        · rintro (h | ⟨d, hd, hw, hk⟩)
          · exact Or.inl h
          · rcases List.mem_cons.1 hd with rfl | hd
            · exact absurd hw.2 h2
            · exact Or.inr ⟨d, hd, hw, hk⟩

theorem runRet_monthly (rc yc : DT) (j : Nat × Nat) :
    ∀ (l : List Cand) (a : RetAcc),
      (l.foldl (retStep rc yc) a).monthly j =
        bestW (a.monthly j)
          (l.filter (fun c => decide (isMonthlyTier rc yc c ∧ monthKey c.ts = j))) := by
  intro l
  induction l with
  | nil => intro a; rfl
  | cons c l ih =>
    intro a
    rw [List.foldl_cons, ih]
    by_cases h1 : DT.Lt rc c.ts
    · rw [List.filter_cons_of_neg (by simp [isMonthlyTier, h1])]
      rw [(retStep_monthly_of_not (fun h => h.1 h1)).1]
    · by_cases h2 : DT.Lt yc c.ts
      · rw [List.filter_cons_of_neg (by simp [isMonthlyTier, h2])]
        rw [(retStep_monthly_of_not (fun h => h.2 h2)).1]
      · by_cases h3 : monthKey c.ts = j
        · rw [List.filter_cons_of_pos (by simp [isMonthlyTier, h1, h2, h3]),
            bestW_cons]
          congr 1
          unfold retStep
          rw [if_neg h1, if_neg h2]
          dsimp only
          simp only [h3]
          by_cases h4 : DT.Lt (a.monthly j).1 c.ts
          · rw [if_pos h4, if_pos h4, if_pos rfl]
          · rw [if_neg h4, if_neg h4]
        · rw [List.filter_cons_of_neg (by simp [isMonthlyTier, h3])]
          congr 1
          unfold retStep
          rw [if_neg h1, if_neg h2]
          dsimp only
          by_cases h4 : DT.Lt (a.monthly (monthKey c.ts)).1 c.ts
          · rw [if_pos h4, if_neg (fun hj => h3 hj.symm)]
          · rw [if_neg h4]

theorem runRet_monthlyKeys (rc yc : DT) (j : Nat × Nat) :
    ∀ (l : List Cand) (a : RetAcc),
      j ∈ (l.foldl (retStep rc yc) a).monthlyKeys ↔
        j ∈ a.monthlyKeys ∨ ∃ c ∈ l, isMonthlyTier rc yc c ∧ monthKey c.ts = j := by
  intro l
  induction l with
  | nil => intro a; simp
  | cons c l ih =>
    intro a
    rw [List.foldl_cons, ih]
    by_cases h1 : DT.Lt rc c.ts
    · rw [(retStep_monthly_of_not (fun h => h.1 h1)).2]
      constructor
      · rintro (h | ⟨d, hd, hw, hk⟩)
        · exact Or.inl h
        · exact Or.inr ⟨d, List.mem_cons_of_mem _ hd, hw, hk⟩
      · rintro (h | ⟨d, hd, hw, hk⟩)
        · exact Or.inl h
        · rcases List.mem_cons.1 hd with rfl | hd
          · exact absurd h1 hw.1
          · exact Or.inr ⟨d, hd, hw, hk⟩
    · by_cases h2 : DT.Lt yc c.ts
      · rw [(retStep_monthly_of_not (fun h => h.2 h2)).2]
        constructor
        · rintro (h | ⟨d, hd, hw, hk⟩)
          · exact Or.inl h
          · exact Or.inr ⟨d, List.mem_cons_of_mem _ hd, hw, hk⟩
        · rintro (h | ⟨d, hd, hw, hk⟩)
          · exact Or.inl h
          · rcases List.mem_cons.1 hd with rfl | hd
            · exact absurd h2 hw.2
            · exact Or.inr ⟨d, hd, hw, hk⟩
      · have hkeys : (retStep rc yc a c).monthlyKeys =
            if monthKey c.ts ∈ a.monthlyKeys then a.monthlyKeys
            else a.monthlyKeys ++ [monthKey c.ts] := by
          unfold retStep
          rw [if_neg h1, if_neg h2]
        rw [hkeys]
        have hmem : ∀ (ks : List (Nat × Nat)),
            (j ∈ if monthKey c.ts ∈ ks then ks else ks ++ [monthKey c.ts]) ↔
              j ∈ ks ∨ j = monthKey c.ts := by
          intro ks
          split
          · rename_i hin
            constructor
            · exact Or.inl
            · rintro (h | rfl)
              · exact h
              · exact hin
          · rw [List.mem_append, List.mem_singleton]
        rw [hmem]
        constructor
        · rintro ((h | rfl) | ⟨d, hd, hw, hk⟩)
          · exact Or.inl h
          · exact Or.inr ⟨c, List.mem_cons_self _ _, ⟨h1, h2⟩, rfl⟩
          · exact Or.inr ⟨d, List.mem_cons_of_mem _ hd, hw, hk⟩
        · rintro (h | ⟨d, hd, hw, hk⟩)
          · exact Or.inl (Or.inl h)
          · rcases List.mem_cons.1 hd with rfl | hd
            · exact Or.inl (Or.inr hk.symm)
            · exact Or.inr ⟨d, hd, hw, hk⟩

theorem mem_winners {keys : List (Nat × Nat)} {m : (Nat × Nat) → DT × Option String}
    {q : String} :
    q ∈ winners keys m ↔ (∃ k ∈ keys, (m k).2 = some q) ∧ q ≠ "" := by
  unfold winners
  rw [List.mem_filter, List.mem_filterMap]
  simp

theorem insertM_perm (c : Cand) (l : List Cand) : (insertM c l).Perm (c :: l) := by
  induction l with
  | nil => exact List.Perm.refl _
  | cons b l ih =>
    rw [insertM]
    split
    · exact List.Perm.refl _
    · exact (ih.cons b).trans (List.Perm.swap c b l)

theorem sortByMtime_perm (l : List Cand) : (sortByMtime l).Perm l := by
  induction l with
  | nil => exact List.Perm.refl _
  | cons c l ih =>
    rw [sortByMtime]
    exact (insertM_perm c (sortByMtime l)).trans (ih.cons c)

theorem mem_keepSet_raw {fs : List FSFile} {rc yc : DT} {q : String} :
    q ∈ keepSet fs rc yc ↔
      q ∈ (runRet rc yc (sortByMtime (candidates (scan fs)))).recent ∨
      q ∈ winners (runRet rc yc (sortByMtime (candidates (scan fs)))).weeklyKeys
            (runRet rc yc (sortByMtime (candidates (scan fs)))).weekly ∨
      q ∈ winners (runRet rc yc (sortByMtime (candidates (scan fs)))).monthlyKeys
            (runRet rc yc (sortByMtime (candidates (scan fs)))).monthly := by
  unfold keepSet finalKeepList
  rw [List.mem_toFinset]
  dsimp only
  rw [List.mem_append, List.mem_append]
  tauto

/-- What being kept means: a kept path is the path of a deduplicated
candidate that is either recent, or the stored maximum of its weekly bucket,
or the stored maximum of its monthly bucket. -/
theorem keep_forward {fs : List FSFile} {rc yc : DT} {q : String}
    (h : q ∈ keepSet fs rc yc) :
    ∃ c ∈ candidates (scan fs), c.path = q ∧
      (isRecent rc c ∨
       (WeeklyMax rc yc (candidates (scan fs)) c ∧ DT.Lt DT.min0 c.ts ∧ q ≠ "" ∧
         ((runRet rc yc (sortByMtime (candidates (scan fs)))).weekly
            (weekKey c.ts)).2 = some q) ∨
       (MonthlyMax rc yc (candidates (scan fs)) c ∧ DT.Lt DT.min0 c.ts ∧ q ≠ "" ∧
         ((runRet rc yc (sortByMtime (candidates (scan fs)))).monthly
            (monthKey c.ts)).2 = some q)) := by
  have hperm := sortByMtime_perm (candidates (scan fs))
  rcases mem_keepSet_raw.1 h with hr | hw | hm
  · unfold runRet at hr
    rw [runRet_recent] at hr
    simp only [initAcc, List.nil_append] at hr
    obtain ⟨c, hc, hpath⟩ := List.mem_map.1 hr
    have hcf := List.mem_filter.1 hc
    refine ⟨c, hperm.mem_iff.1 hcf.1, hpath, Or.inl (by simpa using hcf.2)⟩
  · obtain ⟨⟨k, hk, hslot⟩, hq⟩ := mem_winners.1 hw
    unfold runRet at hslot
    rw [runRet_weekly] at hslot
    have hinit : (initAcc.weekly k) = (DT.min0, none) := rfl
    rw [hinit] at hslot
    rcases @bestW_cases
        ((sortByMtime (candidates (scan fs))).filter
          (fun c => decide (isWeeklyTier rc yc c ∧ weekKey c.ts = k)))
        (DT.min0, none) with hcase | ⟨c, hcfl, hbw, hlt⟩
    · rw [hcase] at hslot
      cases hslot
    · rw [hbw] at hslot
      have hpath : c.path = q := Option.some.inj hslot
      have hcf := List.mem_filter.1 hcfl
      have hckey : isWeeklyTier rc yc c ∧ weekKey c.ts = k := by simpa using hcf.2
      refine ⟨c, hperm.mem_iff.1 hcf.1, hpath, Or.inr (Or.inl ⟨⟨hckey.1, ?_⟩, hlt, hq, ?_⟩)⟩
      · intro x hx hxw hxk
        have hxfl : x ∈ (sortByMtime (candidates (scan fs))).filter
            (fun c => decide (isWeeklyTier rc yc c ∧ weekKey c.ts = k)) := by
          rw [List.mem_filter]
          exact ⟨hperm.mem_iff.2 hx, by simp [hxw, hxk, hckey.2]⟩
        have := (@bestW_le _ (DT.min0, none)).2 x hxfl
        rw [hbw] at this
        exact this
      · unfold runRet
        rw [runRet_weekly, hckey.2, hinit, hbw]
        rw [hpath]
  · obtain ⟨⟨k, hk, hslot⟩, hq⟩ := mem_winners.1 hm
    unfold runRet at hslot
    rw [runRet_monthly] at hslot
    have hinit : (initAcc.monthly k) = (DT.min0, none) := rfl
    rw [hinit] at hslot
    rcases @bestW_cases
        ((sortByMtime (candidates (scan fs))).filter
          (fun c => decide (isMonthlyTier rc yc c ∧ monthKey c.ts = k)))
        (DT.min0, none) with hcase | ⟨c, hcfl, hbw, hlt⟩
    · rw [hcase] at hslot
      cases hslot
    · rw [hbw] at hslot
      have hpath : c.path = q := Option.some.inj hslot
      have hcf := List.mem_filter.1 hcfl
      have hckey : isMonthlyTier rc yc c ∧ monthKey c.ts = k := by simpa using hcf.2
      refine ⟨c, hperm.mem_iff.1 hcf.1, hpath,
        Or.inr (Or.inr ⟨⟨hckey.1, ?_⟩, hlt, hq, ?_⟩)⟩
      · intro x hx hxw hxk
        have hxfl : x ∈ (sortByMtime (candidates (scan fs))).filter
            (fun c => decide (isMonthlyTier rc yc c ∧ monthKey c.ts = k)) := by
          rw [List.mem_filter]
          exact ⟨hperm.mem_iff.2 hx, by simp [hxw, hxk, hckey.2]⟩
        have := (@bestW_le _ (DT.min0, none)).2 x hxfl
        rw [hbw] at this
        exact this
      · unfold runRet
        rw [runRet_monthly, hckey.2, hinit, hbw]
        rw [hpath]

theorem keep_subset_all {fs : List FSFile} {rc yc : DT} :
    keepSet fs rc yc ⊆ allSet fs := by
  intro q hq
  obtain ⟨c, hc, hpath, -⟩ := keep_forward hq
  unfold allSet allPathsList
  rw [List.mem_toFinset]
  exact hpath ▸ List.mem_map_of_mem _ (cand_mem hc).1

theorem recent_kept {fs : List FSFile} {rc yc : DT} {c : Cand}
    (hc : c ∈ candidates (scan fs)) (hr : isRecent rc c) :
    c.path ∈ keepSet fs rc yc := by
  refine mem_keepSet_raw.2 (Or.inl ?_)
  unfold runRet
  rw [runRet_recent]
  simp only [initAcc, List.nil_append]
  refine List.mem_map.2 ⟨c, ?_, rfl⟩
  rw [List.mem_filter]
  exact ⟨(sortByMtime_perm _).mem_iff.2 hc, by simpa using hr⟩

theorem weekly_strictmax_kept {fs : List FSFile} {rc yc : DT} {c : Cand}
    (hc : c ∈ candidates (scan fs)) (hw : isWeeklyTier rc yc c)
    (hmin : DT.Lt DT.min0 c.ts) (hpne : c.path ≠ "")
    (hmax : ∀ x ∈ candidates (scan fs), isWeeklyTier rc yc x →
      weekKey x.ts = weekKey c.ts → x = c ∨ DT.Lt x.ts c.ts) :
    c.path ∈ keepSet fs rc yc := by
  have hperm := sortByMtime_perm (candidates (scan fs))
  refine mem_keepSet_raw.2 (Or.inr (Or.inl (mem_winners.2 ⟨⟨weekKey c.ts, ?_, ?_⟩, hpne⟩)))
  · unfold runRet
    rw [runRet_weeklyKeys]
    exact Or.inr ⟨c, hperm.mem_iff.2 hc, hw, rfl⟩
  · unfold runRet
    rw [runRet_weekly]
    have hinit : (initAcc.weekly (weekKey c.ts)) = (DT.min0, none) := rfl
    rw [hinit]
    have hfl : c ∈ (sortByMtime (candidates (scan fs))).filter
        (fun x => decide (isWeeklyTier rc yc x ∧ weekKey x.ts = weekKey c.ts)) := by
      rw [List.mem_filter]
      exact ⟨hperm.mem_iff.2 hc, by simp [hw]⟩
    rw [bestW_strictmax hfl hmin ?_]
    intro x hx
    have hxf := List.mem_filter.1 hx
    have hxc : isWeeklyTier rc yc x ∧ weekKey x.ts = weekKey c.ts := by
      simpa using hxf.2
    exact hmax x (hperm.mem_iff.1 hxf.1) hxc.1 hxc.2

theorem monthly_strictmax_kept {fs : List FSFile} {rc yc : DT} {c : Cand}
    (hc : c ∈ candidates (scan fs)) (hw : isMonthlyTier rc yc c)
    (hmin : DT.Lt DT.min0 c.ts) (hpne : c.path ≠ "")
    (hmax : ∀ x ∈ candidates (scan fs), isMonthlyTier rc yc x →
      monthKey x.ts = monthKey c.ts → x = c ∨ DT.Lt x.ts c.ts) :
    c.path ∈ keepSet fs rc yc := by
  have hperm := sortByMtime_perm (candidates (scan fs))
  refine mem_keepSet_raw.2 (Or.inr (Or.inr (mem_winners.2 ⟨⟨monthKey c.ts, ?_, ?_⟩, hpne⟩)))
  · unfold runRet
    rw [runRet_monthlyKeys]
    exact Or.inr ⟨c, hperm.mem_iff.2 hc, hw, rfl⟩
  · unfold runRet
    rw [runRet_monthly]
    have hinit : (initAcc.monthly (monthKey c.ts)) = (DT.min0, none) := rfl
    rw [hinit]
    have hfl : c ∈ (sortByMtime (candidates (scan fs))).filter
        (fun x => decide (isMonthlyTier rc yc x ∧ monthKey x.ts = monthKey c.ts)) := by
      rw [List.mem_filter]
      exact ⟨hperm.mem_iff.2 hc, by simp [hw]⟩
    rw [bestW_strictmax hfl hmin ?_]
    intro x hx
    have hxf := List.mem_filter.1 hx
    have hxc : isMonthlyTier rc yc x ∧ monthKey x.ts = monthKey c.ts := by
      simpa using hxf.2
    exact hmax x (hperm.mem_iff.1 hxf.1) hxc.1 hxc.2

/-! ### Parsed timestamps are valid -/

theorem parseTS6L_valid {cs : List Char} {t : DT} (h : parseTS6L cs = some t) :
    validDT t := by
  unfold parseTS6L at h
  split at h
  · split at h
    · dsimp only at h
      split at h
      · rename_i hv
        cases h
        exact hv
      · cases h
    · cases h
  · cases h

theorem parseTS4L_valid {cs : List Char} {t : DT} (h : parseTS4L cs = some t) :
    validDT t := by
  unfold parseTS4L at h
  split at h
  · split at h
    · dsimp only at h
      split at h
      · rename_i hv
        cases h
        exact hv
      · cases h
    · cases h
  · cases h

theorem parseDebugL_valid {cs sl st : List Char} {t : DT}
    (h : parseDebugL cs = some (sl, st, t)) : validDT t := by
  unfold parseDebugL at h
  rcases h1 : stripSuffix jsonSuf cs with _ | core
  · rw [h1] at h; cases h
  · rw [h1] at h
    dsimp only at h
    rcases h2 : parseTS6L (core.drop (core.length - 17)) with _ | dt
    · rw [h2] at h; cases h
    · rw [h2] at h
      dsimp only at h
      have hv := parseTS6L_valid h2
      rcases h3 : stripSuffix desktopTok (core.take (core.length - 17)) with _ | slug
      · rw [h3] at h
        dsimp only at h
        rcases h4 : stripSuffix mobileTok (core.take (core.length - 17)) with _ | slug
        · rw [h4] at h; cases h
        · rw [h4] at h
          dsimp only at h
          cases h
          exact hv
      · rw [h3] at h
        dsimp only at h
        cases h
        exact hv

theorem parseReportL_valid {cs sl st : List Char} {t : DT}
    (h : parseReportL cs = some (sl, st, t)) : validDT t := by
  unfold parseReportL at h
  rcases h1 : stripSuffix htmlSuf cs with _ | core
  · rw [h1] at h; cases h
  · rw [h1] at h
    dsimp only at h
    split at h
    · rcases h2 : parseTS4L ((core.drop 18).drop ((core.drop 18).length - 15)) with _ | dt
      · rw [h2] at h; cases h
      · rw [h2] at h
        dsimp only at h
        have hv := parseTS4L_valid h2
        rcases h3 : stripSuffix ['-'] ((core.drop 18).take ((core.drop 18).length - 15))
            with _ | slug
        · rw [h3] at h; cases h
        · rw [h3] at h
          dsimp only at h
          cases h
          exact hv
    · cases h

theorem parse_valid {cs sl st : List Char} {t : DT}
    (h : parseFilenameL cs = some (sl, st, t)) : validDT t := by
  unfold parseFilenameL at h
  rcases h1 : parseDebugL cs with _ | r
  · rw [h1] at h
    dsimp only at h
    exact parseReportL_valid h
  · rw [h1] at h
    dsimp only at h
    cases h
    exact parseDebugL_valid h1

/-! ### Claim C6: the recent-days boundary -/

/-- C6: a deduplicated candidate timestamped exactly `now - recent_days`
(`recent_days = 90`) fails the strict test `timestamp > ninety_days_ago`, so
the retention loop does not keep it unconditionally (its step leaves the
recent keep-list unchanged), and — being younger than the one-year cutoff —
it belongs to the weekly tier. -/
theorem c6_boundary_weekly (now : DT) (c : Cand) (a : RetAcc)
    (hts : c.ts = subDays now 90) :
    ¬ isRecent (subDays now 90) c ∧
    (retStep (subDays now 90) (subDays now 365) a c).recent = a.recent ∧
    (DT.Lt (subDays now 365) c.ts →
      isWeeklyTier (subDays now 90) (subDays now 365) c) := by
  have hnr : ¬ DT.Lt (subDays now 90) c.ts := by
    rw [hts]; exact DT.Lt.irrefl _
  exact ⟨hnr, retStep_recent_of_not hnr, fun hy => ⟨hnr, hy⟩⟩

theorem c6_boundary_weekly_witness :
    (Cand.mk "dir/p.json" ['p'] desktopStr rcW 0).ts = subDays nowW 90 ∧
    (¬ isRecent (subDays nowW 90) (Cand.mk "dir/p.json" ['p'] desktopStr rcW 0) ∧
     (retStep (subDays nowW 90) (subDays nowW 365) initAcc
        (Cand.mk "dir/p.json" ['p'] desktopStr rcW 0)).recent = initAcc.recent ∧
     (DT.Lt (subDays nowW 365) (Cand.mk "dir/p.json" ['p'] desktopStr rcW 0).ts →
       isWeeklyTier (subDays nowW 90) (subDays nowW 365)
         (Cand.mk "dir/p.json" ['p'] desktopStr rcW 0))) :=
  ⟨rfl, c6_boundary_weekly nowW (Cand.mk "dir/p.json" ['p'] desktopStr rcW 0) initAcc rfl⟩

/-! ### Claim C1: the weekly bucket key -/

/-- C1 counterexample: 2020-12-31 12:00 and 2021-01-01 12:00 share the ISO
8601 week `(2020, 53)`, and with `now = 2021-06-01` both are weekly-tier
candidates, yet the code's `strftime('%Y-%W')` keys differ (`(2020, 52)` vs
`(2021, 0)`), and a run over two such files keeps both — so the weekly bucket
is not the `(iso_year, iso_week_number)` pair and same-ISO-week files need
not share a bucket. -/
theorem c1_counterexample :
    ¬ DT.Lt rcW ⟨2020, 12, 31, 12, 0, 0⟩ ∧ DT.Lt ycW ⟨2020, 12, 31, 12, 0, 0⟩ ∧
    ¬ DT.Lt rcW ⟨2021, 1, 1, 12, 0, 0⟩ ∧ DT.Lt ycW ⟨2021, 1, 1, 12, 0, 0⟩ ∧
    isoWeekPair ⟨2020, 12, 31, 12, 0, 0⟩ = isoWeekPair ⟨2021, 1, 1, 12, 0, 0⟩ ∧
    weekKey ⟨2020, 12, 31, 12, 0, 0⟩ ≠ weekKey ⟨2021, 1, 1, 12, 0, 0⟩ ∧
    (⟨2020, 12, 31, 12, 0, 0⟩ : DT) ≠ ⟨2021, 1, 1, 12, 0, 0⟩ ∧
    keepSet [fileIso1, fileIso2] rcW ycW = {fileIso1.path, fileIso2.path} ∧
    pruneSet [fileIso1, fileIso2] rcW ycW = ∅ := by decide

/-- C1 (amended): the weekly thinning bucket of a weekly-tier candidate is
`strftime('%Y-%W')` — the pair (calendar year, Monday-based `%W` week
number, with days before the first Monday in week 0) — not the ISO 8601
pair: the retention step touches exactly the slot `weekKey c.ts`, and two
weekly-tier candidates fall in the same bucket exactly when calendar year
and `%W` week number agree. -/
theorem c1_weekly_bucket_amended (rc yc : DT) (a : RetAcc) (c : Cand)
    (hw : isWeeklyTier rc yc c) :
    (∀ j, j ≠ weekKey c.ts → (retStep rc yc a c).weekly j = a.weekly j) ∧
    ((retStep rc yc a c).weekly (weekKey c.ts) =
      if DT.Lt (a.weekly (weekKey c.ts)).1 c.ts then (c.ts, some c.path)
      else a.weekly (weekKey c.ts)) ∧
    (∀ t2 : DT, weekKey c.ts = weekKey t2 ↔ c.ts.y = t2.y ∧ weekW c.ts = weekW t2) := by
  obtain ⟨h1, h2⟩ := hw
  refine ⟨?_, ?_, ?_⟩
  · intro j hj
    unfold retStep
    rw [if_neg h1, if_pos h2]
    dsimp only
    by_cases h4 : DT.Lt (a.weekly (weekKey c.ts)).1 c.ts
    · rw [if_pos h4, if_neg hj]
    · rw [if_neg h4]
  · unfold retStep
    rw [if_neg h1, if_pos h2]
    dsimp only
    by_cases h4 : DT.Lt (a.weekly (weekKey c.ts)).1 c.ts
    · rw [if_pos h4, if_pos h4, if_pos rfl]
    · rw [if_neg h4, if_neg h4]
  · intro t2
    unfold weekKey
    rw [Prod.mk.injEq]

theorem c1_weekly_bucket_amended_witness :
    isWeeklyTier rcW ycW (Cand.mk "dir/q.json" ['q'] mobileStr ⟨2021, 1, 5, 12, 0, 0⟩ 0) ∧
    ((∀ j, j ≠ weekKey (⟨2021, 1, 5, 12, 0, 0⟩ : DT) →
        (retStep rcW ycW initAcc
          (Cand.mk "dir/q.json" ['q'] mobileStr ⟨2021, 1, 5, 12, 0, 0⟩ 0)).weekly j =
          initAcc.weekly j) ∧
     ((retStep rcW ycW initAcc
          (Cand.mk "dir/q.json" ['q'] mobileStr ⟨2021, 1, 5, 12, 0, 0⟩ 0)).weekly
        (weekKey (⟨2021, 1, 5, 12, 0, 0⟩ : DT)) =
      if DT.Lt (initAcc.weekly (weekKey (⟨2021, 1, 5, 12, 0, 0⟩ : DT))).1
          (⟨2021, 1, 5, 12, 0, 0⟩ : DT)
      then ((⟨2021, 1, 5, 12, 0, 0⟩ : DT), some "dir/q.json")
      else initAcc.weekly (weekKey (⟨2021, 1, 5, 12, 0, 0⟩ : DT))) ∧
     (∀ t2 : DT, weekKey (⟨2021, 1, 5, 12, 0, 0⟩ : DT) = weekKey t2 ↔
        (⟨2021, 1, 5, 12, 0, 0⟩ : DT).y = t2.y ∧
        weekW (⟨2021, 1, 5, 12, 0, 0⟩ : DT) = weekW t2)) :=
  ⟨by decide,
   c1_weekly_bucket_amended rcW ycW initAcc
     (Cand.mk "dir/q.json" ['q'] mobileStr ⟨2021, 1, 5, 12, 0, 0⟩ 0) (by decide)⟩

/-! ### Claim C3: daily dedup and timestamp ties -/

/-- C3 counterexample: two files with the same retention key and exactly
equal timestamps (same artifact basename in two directories).  The two scan
orders are permutations of one another — the same input set — yet dedup
selects a different survivor in each, so on exact ties the selection is not
independent of the order in which the scanner yielded the files. -/
theorem c3_counterexample :
    (scan [dupA, dupB]).Perm (scan [dupB, dupA]) ∧
    (∀ c1 ∈ scan [dupA, dupB], ∀ c2 ∈ scan [dupA, dupB],
      c1.key = c2.key ∧ c1.ts = c2.ts) ∧
    (candidates (scan [dupA, dupB])).map Cand.path = [dupA.path] ∧
    (candidates (scan [dupB, dupA])).map Cand.path = [dupB.path] ∧
    dupA.path ≠ dupB.path := by decide

/-- C3 (amended): for each retention key the daily deduplicator selects an
entry with the maximum timestamp among the entries sharing that key; an
exact-timestamp tie is broken in favor of the entry the scanner yielded
first (Python's sort is stable), so for a fixed yield order the selection is
deterministic, but it does depend on that order. -/
theorem c3_dedup_amended (l : List Cand)
    (k : List Char × List Char × (Nat × Nat × Nat)) (c : Cand)
    (h : firstMax (l.filter (fun x => decide (x.key = k))) = some c) :
    c ∈ l ∧ c.key = k ∧ (∀ x ∈ l, x.key = k → DT.Le x.ts c.ts) ∧
    ∃ g1 g2, l.filter (fun x => decide (x.key = k)) = g1 ++ c :: g2 ∧
      ∀ x ∈ g1, DT.Lt x.ts c.ts := by
  obtain ⟨hub, g1, g2, hsplit, hstrict⟩ := firstMax_spec h
  have hcf : c ∈ l.filter (fun x => decide (x.key = k)) := by
    rw [hsplit]
    exact List.mem_append_right _ (List.mem_cons_self _ _)
  have hkey : c.key = k := by simpa using List.of_mem_filter hcf
  refine ⟨List.mem_of_mem_filter hcf, hkey, ?_, g1, g2, hsplit, hstrict⟩
  intro x hx hxk
  exact hub x (List.mem_filter.2 ⟨hx, by simp [hxk]⟩)

theorem c3_dedup_amended_witness :
    firstMax ((scan [dupA, dupB]).filter
        (fun x => decide (x.key = (['x'], desktopStr, (2024, 1, 15))))) =
      some (Cand.mk dupA.path ['x'] desktopStr ⟨2024, 1, 15, 10, 0, 0⟩ 1) ∧
    ((Cand.mk dupA.path ['x'] desktopStr ⟨2024, 1, 15, 10, 0, 0⟩ 1) ∈ scan [dupA, dupB] ∧
     (Cand.mk dupA.path ['x'] desktopStr ⟨2024, 1, 15, 10, 0, 0⟩ 1).key =
       (['x'], desktopStr, (2024, 1, 15)) ∧
     (∀ x ∈ scan [dupA, dupB], x.key = (['x'], desktopStr, (2024, 1, 15)) →
       DT.Le x.ts (Cand.mk dupA.path ['x'] desktopStr ⟨2024, 1, 15, 10, 0, 0⟩ 1).ts) ∧
     ∃ g1 g2, (scan [dupA, dupB]).filter
         (fun x => decide (x.key = (['x'], desktopStr, (2024, 1, 15)))) =
         g1 ++ (Cand.mk dupA.path ['x'] desktopStr ⟨2024, 1, 15, 10, 0, 0⟩ 1) :: g2 ∧
       ∀ x ∈ g1, DT.Lt x.ts (Cand.mk dupA.path ['x'] desktopStr ⟨2024, 1, 15, 10, 0, 0⟩ 1).ts) :=
  ⟨by decide,
   c3_dedup_amended (scan [dupA, dupB]) (['x'], desktopStr, (2024, 1, 15))
     (Cand.mk dupA.path ['x'] desktopStr ⟨2024, 1, 15, 10, 0, 0⟩ 1) (by decide)⟩

/-! ### Claim C4: the keep-set invariant -/

/-- C4: for every directory state and cutoffs, the keep-set is a subset of
the recognized artifact paths; every kept path belongs to a deduplicated
candidate that is (a) inside the full-retention window, or (b) a
most-recent entry of its weekly bucket, or (c) a most-recent entry of its
monthly bucket; and the prune-set is exactly the recognized artifacts minus
the keep-set. -/
theorem c4_keep_invariant (fs : List FSFile) (rc yc : DT) :
    keepSet fs rc yc ⊆ allSet fs ∧
    (∀ q ∈ keepSet fs rc yc, ∃ c ∈ candidates (scan fs), c.path = q ∧
      (isRecent rc c ∨ WeeklyMax rc yc (candidates (scan fs)) c ∨
        MonthlyMax rc yc (candidates (scan fs)) c)) ∧
    pruneSet fs rc yc = allSet fs \ keepSet fs rc yc := by
  refine ⟨keep_subset_all, ?_, rfl⟩
  intro q hq
  obtain ⟨c, hc, hpath, hcase⟩ := keep_forward hq
  refine ⟨c, hc, hpath, ?_⟩
  rcases hcase with h | ⟨h, -, -, -⟩ | ⟨h, -, -, -⟩
  · exact Or.inl h
  · exact Or.inr (Or.inl h)
  · exact Or.inr (Or.inr h)

theorem c4_keep_invariant_witness :
    keepSet treeW rcW ycW ≠ ∅ ∧
    (keepSet treeW rcW ycW ⊆ allSet treeW ∧
     (∀ q ∈ keepSet treeW rcW ycW, ∃ c ∈ candidates (scan treeW), c.path = q ∧
       (isRecent rcW c ∨ WeeklyMax rcW ycW (candidates (scan treeW)) c ∨
         MonthlyMax rcW ycW (candidates (scan treeW)) c)) ∧
     pruneSet treeW rcW ycW = allSet treeW \ keepSet treeW rcW ycW) :=
  ⟨by decide, c4_keep_invariant treeW rcW ycW⟩

/-! ### Claim C7: cross-slug weekly collapsing -/

/-- C7: two recognized artifacts with different slugs whose timestamps fall
in the same weekly bucket, both older than `recent_days` and younger than
the weekly cutoff — running the selector over a directory holding exactly
these two keeps only the one with the later timestamp and prunes the other:
weekly thinning collapses across slugs. -/
theorem c7_cross_slug (f1 f2 : FSFile) (rc yc : DT)
    (s1 st1 s2 st2 : List Char) (t1 t2 : DT)
    (hp1 : parseFilenameL f1.name = some (s1, st1, t1))
    (hp2 : parseFilenameL f2.name = some (s2, st2, t2))
    (hs1 : s1 ≠ []) (hst1 : st1 ≠ []) (hs2 : s2 ≠ []) (hst2 : st2 ≠ [])
    (hslug : s1 ≠ s2)
    (hpne1 : f1.path ≠ "") (hpne2 : f2.path ≠ "") (hpp : f1.path ≠ f2.path)
    (hw1r : ¬ DT.Lt rc t1) (hw1y : DT.Lt yc t1)
    (hw2r : ¬ DT.Lt rc t2) (hw2y : DT.Lt yc t2)
    (hkey : weekKey t1 = weekKey t2) (hlt : DT.Lt t1 t2) :
    keepSet [f1, f2] rc yc = {f2.path} ∧ pruneSet [f1, f2] rc yc = {f1.path} := by
  have hscan : scan [f1, f2] =
      [⟨f1.path, s1, st1, t1, f1.mtime⟩, ⟨f2.path, s2, st2, t2, f2.mtime⟩] := by
    unfold scan
    rw [List.filterMap_cons, hp1]
    dsimp only
    rw [if_neg (by tauto)]
    rw [List.filterMap_cons, hp2]
    dsimp only
    rw [if_neg (by tauto)]
    rfl
  have hne : (⟨f1.path, s1, st1, t1, f1.mtime⟩ : Cand) ≠ ⟨f2.path, s2, st2, t2, f2.mtime⟩ := by
    intro h
    exact hpp (congrArg Cand.path h)
  have hkne : (⟨f1.path, s1, st1, t1, f1.mtime⟩ : Cand).key ≠
      (⟨f2.path, s2, st2, t2, f2.mtime⟩ : Cand).key := by
    intro h
    exact hslug (congrArg (fun p => p.1) h)
  have hcand : candidates (scan [f1, f2]) =
      [⟨f1.path, s1, st1, t1, f1.mtime⟩, ⟨f2.path, s2, st2, t2, f2.mtime⟩] := by
    rw [hscan]
    refine candidates_eq_self ?_ ?_
    · simp only [List.map_cons, List.map_nil]
      exact List.nodup_cons.2 ⟨by simpa using hkne, List.nodup_singleton _⟩
    · exact List.nodup_cons.2 ⟨by simpa using hne, List.nodup_singleton _⟩
  have hmin2 : DT.Lt DT.min0 t2 :=
    DT.Lt_of_Le_of_Lt (DT.min0_Le (parse_valid hp1)) hlt
  have hkept2 : f2.path ∈ keepSet [f1, f2] rc yc := by
    refine weekly_strictmax_kept (c := ⟨f2.path, s2, st2, t2, f2.mtime⟩)
      (by rw [hcand]; exact List.mem_cons_of_mem _ (List.mem_cons_self _ _))
      ⟨hw2r, hw2y⟩ hmin2 hpne2 ?_
    intro x hx hxw hxk
    rw [hcand] at hx
    rcases List.mem_cons.1 hx with rfl | hx
    · exact Or.inr hlt
    · rcases List.mem_cons.1 hx with rfl | hx
      · exact Or.inl rfl
      · cases hx
  have hnotkept1 : ∀ q ∈ keepSet [f1, f2] rc yc, q = f2.path := by
    intro q hq
    obtain ⟨c, hc, hpath, hcase⟩ := keep_forward hq
    rw [hcand] at hc
    rcases List.mem_cons.1 hc with rfl | hc
    · exfalso
      rcases hcase with h | ⟨⟨-, hmax⟩, -, -, -⟩ | ⟨⟨⟨-, hmy⟩, -⟩, -, -, -⟩
      · exact hw1r h
      · refine hmax ⟨f2.path, s2, st2, t2, f2.mtime⟩ ?_ ⟨hw2r, hw2y⟩ hkey.symm hlt
        rw [hcand]
        exact List.mem_cons_of_mem _ (List.mem_cons_self _ _)
      · exact hmy hw1y
    · rcases List.mem_cons.1 hc with rfl | hc
      · exact hpath.symm
      · cases hc
  have hall : allSet [f1, f2] = {f1.path, f2.path} := by
    unfold allSet allPathsList
    rw [hscan]
    simp
  constructor
  · apply Finset.ext
    intro q
    rw [Finset.mem_singleton]
    constructor
    · exact hnotkept1 q
    · rintro rfl
      exact hkept2
  · apply Finset.ext
    intro q
    unfold pruneSet
    rw [Finset.mem_sdiff, hall, Finset.mem_singleton]
    constructor
    · rintro ⟨hqa, hqk⟩
      rcases Finset.mem_insert.1 hqa with rfl | hqa
      · rfl
      · rw [Finset.mem_singleton] at hqa
        subst hqa
        exact absurd hkept2 hqk
    · rintro rfl
      refine ⟨Finset.mem_insert_self _ _, fun hk => ?_⟩
      exact hpp (hnotkept1 _ hk)

theorem c7_cross_slug_witness :
    parseFilenameL fileWeek1.name =
      some (('b' :: "eta".data), desktopStr, ⟨2021, 1, 5, 12, 0, 0⟩) ∧
    parseFilenameL fileWeek2.name =
      some (('g' :: "amma".data), mobileStr, ⟨2021, 1, 7, 13, 0, 0⟩) ∧
    weekKey ⟨2021, 1, 5, 12, 0, 0⟩ = weekKey ⟨2021, 1, 7, 13, 0, 0⟩ ∧
    (keepSet [fileWeek1, fileWeek2] rcW ycW = {fileWeek2.path} ∧
     pruneSet [fileWeek1, fileWeek2] rcW ycW = {fileWeek1.path}) :=
  ⟨by decide, by decide, by decide,
   c7_cross_slug fileWeek1 fileWeek2 rcW ycW
     ('b' :: "eta".data) desktopStr ('g' :: "amma".data) mobileStr
     ⟨2021, 1, 5, 12, 0, 0⟩ ⟨2021, 1, 7, 13, 0, 0⟩
     (by decide) (by decide) (by decide) (by decide) (by decide) (by decide)
     (by decide) (by decide) (by decide) (by decide) (by decide) (by decide)
     (by decide) (by decide) (by decide) (by decide)⟩

/-! ### The executor touches only the prune list -/

theorem runDelete_untouched (dry : Bool) :
    ∀ (ps : List String) (w : World) (acc : List LogLine) (f : FSFile),
      f ∈ w.files → f.path ∉ ps →
      f ∈ (ps.foldl (fun acc p => let r := deleteStep dry acc.1 p;
            (r.1, acc.2 ++ r.2)) (w, acc)).1.files := by
  intro ps
  induction ps with
  | nil => intro w acc f hf _; exact hf
  | cons p ps ih =>
    intro w acc f hf hnp
    rw [List.foldl_cons]
    have hne : f.path ≠ p := fun h => hnp (by rw [h]; exact List.mem_cons_self _ _)
    refine ih _ _ f ?_ (fun h => hnp (List.mem_cons_of_mem _ h))
    unfold deleteStep
    split
    · exact hf
    · split
      · exact List.mem_filter.2 ⟨hf, by simpa using hne⟩
      · exact hf

theorem runArchive_untouched (dry : Bool) (fails : String → Bool) :
    ∀ (ps : List String) (w : World) (acc : List LogLine) (f : FSFile),
      f ∈ w.files → f.path ∉ ps →
      f ∈ (ps.foldl (fun acc p => if dry then acc else
            let r := archStep fails acc.1 p; (r.1, acc.2 ++ r.2)) (w, acc)).1.files := by
  intro ps
  induction ps with
  | nil => intro w acc f hf _; exact hf
  | cons p ps ih =>
    intro w acc f hf hnp
    rw [List.foldl_cons]
    have hne : f.path ≠ p := fun h => hnp (by rw [h]; exact List.mem_cons_self _ _)
    by_cases hd : dry
    · rw [if_pos hd]
      exact ih _ _ f hf (fun h => hnp (List.mem_cons_of_mem _ h))
    · rw [if_neg hd]
      refine ih _ _ f ?_ (fun h => hnp (List.mem_cons_of_mem _ h))
      unfold archStep
      split
      · split
        · exact hf
        · exact List.mem_filter.2 ⟨hf, by simpa using hne⟩
      · exact hf

theorem runMain_untouched (dry arch : Bool) (fails : String → Bool) (rc yc : DT)
    (w : World) (f : FSFile) (hf : f ∈ w.files)
    (hnp : f.path ∉ pruneListOf w.files rc yc) :
    f ∈ (runMain dry arch fails rc yc w).1.files := by
  unfold runMain
  dsimp only
  by_cases hemp : (pruneListOf w.files rc yc).isEmpty
  · rw [if_pos hemp]
    exact hf
  · rw [if_neg hemp]
    by_cases harch : arch
    · rw [if_pos harch]
      unfold runArchive
      exact runArchive_untouched dry fails _ _ _ f hf hnp
    · rw [if_neg harch]
      unfold runDelete
      exact runDelete_untouched dry _ _ _ f hf hnp

/-! ### Claim C8: unrecognized files are inert -/

/-- C8: a path all of whose directory entries have unrecognized filenames —
no grammar match, or a shape-correct timestamp that is not a real calendar
date/time — is not an artifact: it is in neither the keep-set nor the
prune-set, and the executor (any mode, dry or not) leaves its file in
place. -/
theorem c8_unrecognized_inert (w : World) (rc yc : DT) (p : String)
    (h : ∀ f ∈ w.files, f.path = p → parseFilenameL f.name = none) :
    p ∉ allSet w.files ∧ p ∉ keepSet w.files rc yc ∧ p ∉ pruneSet w.files rc yc ∧
    ∀ (dry arch : Bool) (fails : String → Bool),
      ∀ f ∈ w.files, f.path = p → f ∈ (runMain dry arch fails rc yc w).1.files := by
  have hall : p ∉ allSet w.files := by
    intro hp
    unfold allSet allPathsList at hp
    rw [List.mem_toFinset] at hp
    obtain ⟨c, hc, hcp⟩ := List.mem_map.1 hp
    obtain ⟨f, hf, hparse, -, -, hfp, -⟩ := scan_mem.1 hc
    rw [h f hf (by rw [← hfp, hcp])] at hparse
    cases hparse
  refine ⟨hall, fun hk => hall (keep_subset_all hk), fun hp => ?_, ?_⟩
  · exact hall (Finset.mem_sdiff.1 hp).1
  · intro dry arch fails f hf hfp
    refine runMain_untouched dry arch fails rc yc w f hf (fun hmem => ?_)
    have h1 := List.mem_filter.1 hmem
    have h2 := mem_dedupL.1 h1.1
    exact hall (List.mem_toFinset.2 (hfp ▸ h2))

theorem c8_unrecognized_inert_witness :
    (∀ f ∈ (World.mk [fileRecent1, fileOther, fileBadDay] none).files,
      f.path = "dir/readme.txt" → parseFilenameL f.name = none) ∧
    (∀ f ∈ (World.mk [fileRecent1, fileOther, fileBadDay] none).files,
      f.path = "dir/alpha-desktop-2024-01-32-120000.json" →
        parseFilenameL f.name = none) ∧
    ("dir/alpha-desktop-2024-01-32-120000.json" ∉
        allSet [fileRecent1, fileOther, fileBadDay] ∧
     "dir/alpha-desktop-2024-01-32-120000.json" ∉
        keepSet [fileRecent1, fileOther, fileBadDay] rcW ycW ∧
     "dir/alpha-desktop-2024-01-32-120000.json" ∉
        pruneSet [fileRecent1, fileOther, fileBadDay] rcW ycW ∧
     ∀ (dry arch : Bool) (fails : String → Bool),
       ∀ f ∈ (World.mk [fileRecent1, fileOther, fileBadDay] none).files,
         f.path = "dir/alpha-desktop-2024-01-32-120000.json" →
         f ∈ (runMain dry arch fails rcW ycW
                (World.mk [fileRecent1, fileOther, fileBadDay] none)).1.files) :=
  ⟨by decide, by decide,
   c8_unrecognized_inert (World.mk [fileRecent1, fileOther, fileBadDay] none) rcW ycW
     "dir/alpha-desktop-2024-01-32-120000.json" (by decide)⟩

/-! ### Claim C10: empty slugs match the regex but are skipped -/

theorem fmtTS6_length (t : DT) : (fmtTS6 t).length = 17 := by
  simp [fmtTS6, pad4, pad2]

theorem daysInMonth_le_31 (y mo : Nat) : daysInMonth y mo ≤ 31 := by
  unfold daysInMonth
  split
  · split <;> omega
  · split <;> omega

theorem parseTS6L_fmt {t : DT} (hv : validDT t) : parseTS6L (fmtTS6 t) = some t := by
  obtain ⟨y, mo, d, h, mi, s⟩ := t
  unfold validDT at hv
  dsimp only at hv
  obtain ⟨hy1, hy2, hm1, hm2, hd1, hd2, hh, hmi, hs⟩ := hv
  have hd31 : d ≤ 31 := hd2.trans (daysInMonth_le_31 y mo)
  have e1 : val4 (dch (y / 1000 % 10)) (dch (y / 100 % 10)) (dch (y / 10 % 10))
      (dch (y % 10)) = y := by
    unfold val4
    rw [c2n_dch (Nat.mod_lt _ (by omega)), c2n_dch (Nat.mod_lt _ (by omega)),
      c2n_dch (Nat.mod_lt _ (by omega)), c2n_dch (Nat.mod_lt _ (by omega))]
    omega
  have e2 : ∀ n : Nat, n ≤ 99 → val2 (dch (n / 10 % 10)) (dch (n % 10)) = n := by
    intro n hn
    unfold val2
    rw [c2n_dch (Nat.mod_lt _ (by omega)), c2n_dch (Nat.mod_lt _ (by omega))]
    omega
  unfold fmtTS6 pad4 pad2
  simp only [List.cons_append, List.nil_append]
  unfold parseTS6L
  dsimp only
  rw [if_pos]
  · simp only [e1, e2 mo (by omega), e2 d (by omega), e2 h (by omega),
      e2 mi (by omega), e2 s (by omega)]
    rw [if_pos]
    exact ⟨hy1, hy2, hm1, hm2, hd1, hd2, hh, hmi, hs⟩
  · refine ⟨rfl, rfl, rfl, ?_⟩
    have hdig : ∀ n : Nat, (dch (n % 10)).isDigit = true :=
      fun n => dch_isDigit (Nat.mod_lt _ (by omega))
    exact ⟨hdig _, hdig _, hdig _, hdig _, hdig _, hdig _, hdig _, hdig _, hdig _,
      hdig _, hdig _, hdig _, hdig _, hdig _⟩

theorem parseDebugL_empty_desktop {t : DT} (hv : validDT t) :
    parseDebugL (desktopTok ++ fmtTS6 t ++ jsonSuf) = some ([], desktopStr, t) := by
  unfold parseDebugL
  rw [stripSuffix_append]
  dsimp only
  have hlen : (desktopTok ++ fmtTS6 t).length - 17 = desktopTok.length := by
    rw [List.length_append, fmtTS6_length]
    omega
  rw [hlen, List.drop_left, List.take_left, parseTS6L_fmt hv]
  dsimp only
  have hstrip : stripSuffix desktopTok desktopTok = some [] := by
    have := stripSuffix_append desktopTok []
    rwa [List.nil_append] at this
  rw [hstrip]

theorem parseDebugL_empty_mobile {t : DT} (hv : validDT t) :
    parseDebugL (mobileTok ++ fmtTS6 t ++ jsonSuf) = some ([], mobileStr, t) := by
  unfold parseDebugL
  rw [stripSuffix_append]
  dsimp only
  have hlen : (mobileTok ++ fmtTS6 t).length - 17 = mobileTok.length := by
    rw [List.length_append, fmtTS6_length]
    omega
  rw [hlen, List.drop_left, List.take_left, parseTS6L_fmt hv]
  dsimp only
  have hdesk : stripSuffix desktopTok mobileTok = none := by decide
  rw [hdesk]
  dsimp only
  have hstrip : stripSuffix mobileTok mobileTok = some [] := by
    have := stripSuffix_append mobileTok []
    rwa [List.nil_append] at this
  rw [hstrip]

/-- C10: a filename `-desktop-<valid ts>.json` or `-mobile-<valid ts>.json`
matches the debug-responses regex with an empty slug and `parse_filename`
returns `("", strategy, timestamp)`; the scanner then drops the file at the
`not all([slug, strategy, timestamp])` truthiness check, so its path is in
neither the keep-set nor the prune-set, exactly like an unrecognized file. -/
theorem c10_empty_slug_skipped (t : DT) (hv : validDT t) :
    parseFilenameL (desktopTok ++ fmtTS6 t ++ jsonSuf) = some ([], desktopStr, t) ∧
    parseFilenameL (mobileTok ++ fmtTS6 t ++ jsonSuf) = some ([], mobileStr, t) ∧
    ∀ (fs : List FSFile) (rc yc : DT) (p : String),
      (∀ f ∈ fs, f.path = p →
        f.name = desktopTok ++ fmtTS6 t ++ jsonSuf ∨
        f.name = mobileTok ++ fmtTS6 t ++ jsonSuf) →
      p ∉ allSet fs ∧ p ∉ keepSet fs rc yc ∧ p ∉ pruneSet fs rc yc := by
  have hd : parseFilenameL (desktopTok ++ fmtTS6 t ++ jsonSuf) =
      some ([], desktopStr, t) := by
    unfold parseFilenameL
    rw [parseDebugL_empty_desktop hv]
  have hm : parseFilenameL (mobileTok ++ fmtTS6 t ++ jsonSuf) =
      some ([], mobileStr, t) := by
    unfold parseFilenameL
    rw [parseDebugL_empty_mobile hv]
  refine ⟨hd, hm, ?_⟩
  intro fs rc yc p h
  have hall : p ∉ allSet fs := by
    intro hp
    unfold allSet allPathsList at hp
    rw [List.mem_toFinset] at hp
    obtain ⟨c, hc, hcp⟩ := List.mem_map.1 hp
    obtain ⟨f, hf, hparse, hsl, -, hfp, -⟩ := scan_mem.1 hc
    rcases h f hf (by rw [← hfp, hcp]) with hn | hn
    · rw [hn, hd] at hparse
      exact hsl (congrArg (fun r => r.1) (Option.some.inj hparse)).symm
    · rw [hn, hm] at hparse
      exact hsl (congrArg (fun r => r.1) (Option.some.inj hparse)).symm
  exact ⟨hall, fun hk => hall (keep_subset_all hk),
    fun hp => hall (Finset.mem_sdiff.1 hp).1⟩

theorem c10_empty_slug_skipped_witness :
    validDT ⟨2024, 1, 15, 9, 30, 0⟩ ∧
    (parseFilenameL (desktopTok ++ fmtTS6 ⟨2024, 1, 15, 9, 30, 0⟩ ++ jsonSuf) =
        some ([], desktopStr, ⟨2024, 1, 15, 9, 30, 0⟩) ∧
     parseFilenameL (mobileTok ++ fmtTS6 ⟨2024, 1, 15, 9, 30, 0⟩ ++ jsonSuf) =
        some ([], mobileStr, ⟨2024, 1, 15, 9, 30, 0⟩) ∧
     ∀ (fs : List FSFile) (rc yc : DT) (p : String),
       (∀ f ∈ fs, f.path = p →
         f.name = desktopTok ++ fmtTS6 ⟨2024, 1, 15, 9, 30, 0⟩ ++ jsonSuf ∨
         f.name = mobileTok ++ fmtTS6 ⟨2024, 1, 15, 9, 30, 0⟩ ++ jsonSuf) →
       p ∉ allSet fs ∧ p ∉ keepSet fs rc yc ∧ p ∉ pruneSet fs rc yc) :=
  ⟨by decide, c10_empty_slug_skipped ⟨2024, 1, 15, 9, 30, 0⟩ (by decide)⟩

/-! ### Claim C2: dry runs -/

theorem existsB_iff {w : World} {p : String} :
    existsB w p = true ↔ ∃ f ∈ w.files, f.path = p := by
  unfold existsB
  rw [List.any_eq_true]
  constructor
  · rintro ⟨f, hf, he⟩
    exact ⟨f, hf, by simpa using he⟩
  · rintro ⟨f, hf, he⟩
    exact ⟨f, hf, by simpa using he⟩

theorem removalReport_append (l1 l2 : List LogLine) :
    removalReport (l1 ++ l2) = removalReport l1 ++ removalReport l2 := by
  unfold removalReport
  rw [List.filterMap_append]

theorem runDelete_dry (ps : List String) :
    ∀ (w : World) (acc : List LogLine),
      ps.foldl (fun acc p => let r := deleteStep true acc.1 p; (r.1, acc.2 ++ r.2))
          (w, acc) =
        (w, acc ++ ps.map LogLine.wouldDelete) := by
  induction ps with
  | nil => intro w acc; simp
  | cons p ps ih =>
    intro w acc
    rw [List.foldl_cons]
    have hstep : deleteStep true w p = (w, [LogLine.wouldDelete p]) := rfl
    dsimp only
    rw [hstep, ih]
    simp

theorem removalReport_wouldDelete (ps : List String) :
    removalReport (ps.map LogLine.wouldDelete) = ps := by
  induction ps with
  | nil => rfl
  | cons p ps ih =>
    rw [List.map_cons]
    unfold removalReport at ih ⊢
    rw [List.filterMap_cons]
    dsimp only
    rw [ih]

theorem runDelete_real (ps : List String) (hnd : ps.Nodup) :
    ∀ (w : World) (acc : List LogLine),
      (∀ p ∈ ps, ∃ f ∈ w.files, f.path = p) →
      removalReport (ps.foldl
          (fun acc p => let r := deleteStep false acc.1 p; (r.1, acc.2 ++ r.2))
          (w, acc)).2 =
        removalReport acc ++ ps := by
  induction ps with
  | nil => intro w acc _; simp
  | cons p ps ih =>
    intro w acc hex
    rw [List.foldl_cons]
    have hexp : existsB w p = true :=
      existsB_iff.2 (hex p (List.mem_cons_self _ _))
    have hstep : deleteStep false w p =
        ({ w with files := removePath w.files p }, [LogLine.deleted p]) := by
      unfold deleteStep
      rw [if_neg (by simp), if_pos hexp]
    dsimp only
    rw [hstep]
    rw [ih (List.nodup_cons.1 hnd).2 _ _ ?_]
    · rw [removalReport_append]
      have : removalReport [LogLine.deleted p] = [p] := rfl
      rw [this]
      simp
    · intro q hq
      obtain ⟨f, hf, hfp⟩ := hex q (List.mem_cons_of_mem _ hq)
      have hqp : q ≠ p := by
        rintro rfl
        exact (List.nodup_cons.1 hnd).1 hq
      refine ⟨f, List.mem_filter.2 ⟨hf, by simpa using hfp ▸ hqp⟩, hfp⟩

theorem pruneListOf_nodup (fs : List FSFile) (rc yc : DT) :
    (pruneListOf fs rc yc).Nodup :=
  List.Nodup.filter _ nodup_dedupL

theorem pruneListOf_exists (fs : List FSFile) (rc yc : DT) :
    ∀ p ∈ pruneListOf fs rc yc, ∃ f ∈ fs, f.path = p := by
  intro p hp
  have h1 := mem_dedupL.1 (List.mem_filter.1 hp).1
  obtain ⟨c, hc, hcp⟩ := List.mem_map.1 h1
  obtain ⟨f, hf, -, -, -, hfp, -⟩ := scan_mem.1 hc
  exact ⟨f, hf, by rw [← hfp, hcp]⟩

theorem runArchive_dry_fixed (fails : String → Bool) (ps : List String) :
    ∀ (st : World × List LogLine),
      ps.foldl (fun acc p => if true = true then acc
        else let r := archStep fails acc.1 p; (r.1, acc.2 ++ r.2)) st = st := by
  induction ps with
  | nil => intro st; rfl
  | cons p ps ih =>
    intro st
    rw [List.foldl_cons]
    exact (ih _).trans rfl

/-- C2 counterexample: with a directory containing a daily duplicate (so the
prune-set is nonempty) and no pre-existing archive, a dry run in archive mode
creates the archive file (`zipfile.ZipFile(name, 'a')` is opened before the
loop) and logs no per-file prune lines, while the real archive run removes
and reports a nonempty set — so dry-run is not a no-op in archive mode and
its log does not report the prune-set. -/
theorem c2_counterexample :
    pruneListOf treeW rcW ycW ≠ [] ∧
    (World.mk treeW none).archive = none ∧
    (runMain true true (fun _ => false) rcW ycW (World.mk treeW none)).1.archive =
      some [] ∧
    removalReport
      (runMain true true (fun _ => false) rcW ycW (World.mk treeW none)).2 = [] ∧
    removalReport
      (runMain false true (fun _ => false) rcW ycW (World.mk treeW none)).2 ≠ [] := by
  decide

/-- C2 (amended): in delete mode, a dry run leaves the state untouched and
its log lists exactly the prune-set — the same paths the real delete run
removes and reports.  In archive mode, a dry run removes no source file, but
it opens the zip in append mode before the loop — creating the archive file
when absent — and, because the whole loop body is guarded by the dry-run
flag, it logs no per-file prune lines at all. -/
theorem c2_dry_run_amended (w : World) (rc yc : DT) (fails : String → Bool) :
    (runMain true false fails rc yc w).1 = w ∧
    removalReport (runMain true false fails rc yc w).2 = pruneListOf w.files rc yc ∧
    removalReport (runMain false false fails rc yc w).2 = pruneListOf w.files rc yc ∧
    (runMain true true fails rc yc w).1.files = w.files ∧
    removalReport (runMain true true fails rc yc w).2 = [] ∧
    (pruneListOf w.files rc yc ≠ [] →
      (runMain true true fails rc yc w).1.archive = some (w.archive.getD [])) := by
  by_cases hemp : (pruneListOf w.files rc yc).isEmpty
  · have hnil : pruneListOf w.files rc yc = [] := List.isEmpty_iff.1 hemp
    refine ⟨?_, ?_, ?_, ?_, ?_, ?_⟩ <;>
      simp [runMain, hnil, removalReport]
  · have harch : runMain true true fails rc yc w =
        ({ w with archive := some (w.archive.getD []) }, []) := by
      unfold runMain
      dsimp only
      rw [if_neg hemp, if_pos rfl]
      unfold runArchive
      exact runArchive_dry_fixed fails _ _
    refine ⟨?_, ?_, ?_, ?_, ?_, ?_⟩
    · unfold runMain
      dsimp only
      rw [if_neg hemp, if_neg (by simp)]
      unfold runDelete
      rw [runDelete_dry]
    · unfold runMain
      dsimp only
      rw [if_neg hemp, if_neg (by simp)]
      unfold runDelete
      rw [runDelete_dry]
      dsimp only
      rw [List.nil_append, removalReport_wouldDelete]
    · unfold runMain
      dsimp only
      rw [if_neg hemp, if_neg (by simp)]
      unfold runDelete
      rw [runDelete_real _ (pruneListOf_nodup w.files rc yc) _ _
        (pruneListOf_exists w.files rc yc)]
      rfl
    · rw [harch]
    · rw [harch]
      rfl
    · intro _
      rw [harch]

theorem c2_dry_run_amended_witness :
    pruneListOf treeW rcW ycW ≠ [] ∧
    ((runMain true false (fun _ => false) rcW ycW (World.mk treeW none)).1 =
        World.mk treeW none ∧
     removalReport (runMain true false (fun _ => false) rcW ycW
        (World.mk treeW none)).2 = pruneListOf treeW rcW ycW ∧
     removalReport (runMain false false (fun _ => false) rcW ycW
        (World.mk treeW none)).2 = pruneListOf treeW rcW ycW ∧
     (runMain true true (fun _ => false) rcW ycW (World.mk treeW none)).1.files =
        treeW ∧
     removalReport (runMain true true (fun _ => false) rcW ycW
        (World.mk treeW none)).2 = [] ∧
     (pruneListOf treeW rcW ycW ≠ [] →
       (runMain true true (fun _ => false) rcW ycW (World.mk treeW none)).1.archive =
         some ((World.mk treeW none).archive.getD []))) :=
  ⟨by decide, c2_dry_run_amended (World.mk treeW none) rcW ycW (fun _ => false)⟩

/-! ### Claim C9: per-file archive atomicity -/

theorem archFold_files_shrink (fails : String → Bool) :
    ∀ (ps : List String) (w : World) (acc : List LogLine) (f : FSFile),
      f ∈ (ps.foldl (fun acc p => let r := archStep fails acc.1 p; (r.1, acc.2 ++ r.2))
            (w, acc)).1.files → f ∈ w.files := by
  intro ps
  induction ps with
  | nil => intro w acc f hf; exact hf
  | cons p ps ih =>
    intro w acc f hf
    rw [List.foldl_cons] at hf
    have := ih _ _ f hf
    unfold archStep at this
    split at this
    · split at this
      · exact this
      · exact List.mem_of_mem_filter this
    · exact this

theorem archFold_archive_mono (fails : String → Bool) :
    ∀ (ps : List String) (w : World) (acc : List LogLine) (b : List Char),
      b ∈ w.archive.getD [] →
      b ∈ (ps.foldl (fun acc p => let r := archStep fails acc.1 p; (r.1, acc.2 ++ r.2))
            (w, acc)).1.archive.getD [] := by
  intro ps
  induction ps with
  | nil => intro w acc b hb; exact hb
  | cons p ps ih =>
    intro w acc b hb
    rw [List.foldl_cons]
    refine ih _ _ b ?_
    unfold archStep
    split
    · split
      · exact hb
      · simpa using Or.inl hb
    · exact hb

theorem archFold_preserves_failed (fails : String → Bool) (X : String)
    (hfX : fails X = true) :
    ∀ (ps : List String) (w : World) (acc : List LogLine),
      (∃ f ∈ w.files, f.path = X) →
      ∃ f ∈ (ps.foldl (fun acc p => let r := archStep fails acc.1 p; (r.1, acc.2 ++ r.2))
            (w, acc)).1.files, f.path = X := by
  intro ps
  induction ps with
  | nil => intro w acc h; exact h
  | cons p ps ih =>
    intro w acc h
    rw [List.foldl_cons]
    refine ih _ _ ?_
    obtain ⟨f, hf, hfp⟩ := h
    unfold archStep
    split
    · split
      · exact ⟨f, hf, hfp⟩
      · rename_i hfails
        have hpX : p ≠ X := by
          rintro rfl
          rw [hfX] at hfails
          exact hfails rfl
        refine ⟨f, List.mem_filter.2 ⟨hf, ?_⟩, hfp⟩
        simp only [bne_iff_ne, ne_eq, decide_eq_true_eq]
        rw [hfp]
        exact fun h => hpX h.symm
    · exact ⟨f, hf, hfp⟩

theorem archFold_success (fails : String → Bool) (X : String)
    (hfX : fails X = false) :
    ∀ (ps : List String) (w : World) (acc : List LogLine),
      X ∈ ps → (∃ f ∈ w.files, f.path = X) →
      (∀ f ∈ (ps.foldl (fun acc p => let r := archStep fails acc.1 p; (r.1, acc.2 ++ r.2))
            (w, acc)).1.files, f.path ≠ X) ∧
      baseName X ∈ (ps.foldl
        (fun acc p => let r := archStep fails acc.1 p; (r.1, acc.2 ++ r.2))
          (w, acc)).1.archive.getD [] := by
  intro ps
  induction ps with
  | nil => intro w acc h; cases h
  | cons p ps ih =>
    intro w acc hmem hex
    rw [List.foldl_cons]
    by_cases hpX : p = X
    · subst hpX
      have hstep : archStep fails w p =
          ({ files := removePath w.files p,
             archive := some ((w.archive.getD []) ++ [baseName p]) },
           [LogLine.archivedRemoved p]) := by
        unfold archStep
        rw [if_pos (existsB_iff.2 hex), if_neg (by rw [hfX]; simp)]
      dsimp only
      rw [hstep]
      constructor
      · intro f hf
        have hf2 := archFold_files_shrink fails ps _ _ f hf
        intro hfp
        have := List.mem_filter.1 hf2
        rw [hfp] at this
        simpa using this.2
      · refine archFold_archive_mono fails ps _ _ _ ?_
        simp
    · have hX2 : X ∈ ps := by
        rcases List.mem_cons.1 hmem with rfl | h
        · exact absurd rfl hpX
        · exact h
      refine ih _ _ hX2 ?_
      obtain ⟨f, hf, hfp⟩ := hex
      unfold archStep
      split
      · split
        · exact ⟨f, hf, hfp⟩
        · refine ⟨f, List.mem_filter.2 ⟨hf, ?_⟩, hfp⟩
          simp only [bne_iff_ne, ne_eq, decide_eq_true_eq]
          rw [hfp]
          exact fun h => hpX h.symm
      · exact ⟨f, hf, hfp⟩

theorem archFold_sibling (fails1 fails2 : String → Bool) (X : String)
    (hagree : ∀ q, q ≠ X → fails1 q = fails2 q) :
    ∀ (ps : List String) (w1 w2 : World) (acc1 acc2 : List LogLine),
      (∀ f : FSFile, f.path ≠ X → (f ∈ w1.files ↔ f ∈ w2.files)) →
      ∀ f : FSFile, f.path ≠ X →
        (f ∈ (ps.foldl (fun acc p => let r := archStep fails1 acc.1 p; (r.1, acc.2 ++ r.2))
              (w1, acc1)).1.files ↔
         f ∈ (ps.foldl (fun acc p => let r := archStep fails2 acc.1 p; (r.1, acc.2 ++ r.2))
              (w2, acc2)).1.files) := by
  intro ps
  induction ps with
  | nil => intro w1 w2 acc1 acc2 hrel f hfX; exact hrel f hfX
  | cons p ps ih =>
    intro w1 w2 acc1 acc2 hrel f hfX
    rw [List.foldl_cons, List.foldl_cons]
    refine ih _ _ _ _ ?_ f hfX
    intro g hgX
    by_cases hpX : p = X
    · subst hpX
      have h1 : g ∈ (archStep fails1 w1 p).1.files ↔ g ∈ w1.files := by
        unfold archStep
        split
        · split
          · exact Iff.rfl
          · dsimp only
            constructor
            · exact List.mem_of_mem_filter
            · intro hg
              exact List.mem_filter.2 ⟨hg, by simpa using hgX⟩
        · exact Iff.rfl
      have h2 : g ∈ (archStep fails2 w2 p).1.files ↔ g ∈ w2.files := by
        unfold archStep
        split
        · split
          · exact Iff.rfl
          · dsimp only
            constructor
            · exact List.mem_of_mem_filter
            · intro hg
              exact List.mem_filter.2 ⟨hg, by simpa using hgX⟩
        · exact Iff.rfl
      rw [h1, h2]
      exact hrel g hgX
    · have hfe : fails1 p = fails2 p := hagree p hpX
      have hee : existsB w1 p = existsB w2 p := by
        by_cases he : existsB w1 p = true
        · rw [he]
          obtain ⟨f0, hf0, hf0p⟩ := existsB_iff.1 he
          have : f0.path ≠ X := by rw [hf0p]; exact hpX
          exact (existsB_iff.2 ⟨f0, (hrel f0 this).1 hf0, hf0p⟩).symm
        · have he2 : existsB w2 p ≠ true := by
            intro h2
            obtain ⟨f0, hf0, hf0p⟩ := existsB_iff.1 h2
            have : f0.path ≠ X := by rw [hf0p]; exact hpX
            exact he (existsB_iff.2 ⟨f0, (hrel f0 this).2 hf0, hf0p⟩)
          rw [Bool.not_eq_true] at he
          rcases hb2 : existsB w2 p with - | -
          · rw [he]
          · exact absurd hb2 he2
      unfold archStep
      rw [hfe, hee]
      by_cases he2 : existsB w2 p = true
      · rw [if_pos he2, if_pos he2]
        by_cases hfp : fails2 p = true
        · rw [if_pos hfp, if_pos hfp]
          exact hrel g hgX
        · rw [if_neg hfp, if_neg hfp]
          dsimp only
          constructor
          · intro hg
            have h3 := List.mem_filter.1 hg
            exact List.mem_filter.2 ⟨(hrel g hgX).1 h3.1, h3.2⟩
          · intro hg
            have h3 := List.mem_filter.1 hg
            exact List.mem_filter.2 ⟨(hrel g hgX).2 h3.1, h3.2⟩
      · rw [if_neg he2, if_neg he2]
        exact hrel g hgX

/-- C9: in archive mode (non-dry), a file X of the prune-set whose archive
write raises is not removed — it still exists afterwards — and every other
file ends up exactly as it would had X's write not failed (the batch
continues); when X's write succeeds, X is removed only with its basename
recorded in the archive. -/
theorem c9_archive_atomicity (w : World) (rc yc : DT) (fails : String → Bool)
    (X : String) (hX : X ∈ pruneListOf w.files rc yc) :
    (fails X = true →
      (∃ f ∈ (runMain false true fails rc yc w).1.files, f.path = X) ∧
      (∀ q : FSFile, q.path ≠ X →
        (q ∈ (runMain false true fails rc yc w).1.files ↔
         q ∈ (runMain false true (fun p => if p = X then false else fails p)
              rc yc w).1.files))) ∧
    (fails X = false →
      (∀ f ∈ (runMain false true fails rc yc w).1.files, f.path ≠ X) ∧
      baseName X ∈ (runMain false true fails rc yc w).1.archive.getD []) := by
  have hne : ¬ (pruneListOf w.files rc yc).isEmpty = true := by
    intro h
    rw [List.isEmpty_iff.1 h] at hX
    cases hX
  have hex : ∃ f ∈ w.files, f.path = X := pruneListOf_exists w.files rc yc X hX
  have hrm : ∀ (fl : String → Bool), runMain false true fl rc yc w =
      (pruneListOf w.files rc yc).foldl
        (fun acc p => let r := archStep fl acc.1 p; (r.1, acc.2 ++ r.2))
        ({ w with archive := some (w.archive.getD []) }, []) := by
    intro fl
    unfold runMain
    dsimp only
    rw [if_neg hne, if_pos rfl]
    rfl
  constructor
  · intro hfX
    constructor
    · rw [hrm]
      exact archFold_preserves_failed fails X hfX _ _ _ hex
    · intro q hqX
      rw [hrm, hrm]
      refine archFold_sibling fails (fun p => if p = X then false else fails p) X
        ?_ _ _ _ _ _ ?_ q hqX
      · intro r hrX
        show fails r = if r = X then false else fails r
        rw [if_neg hrX]
      · intro g _
        exact Iff.rfl
  · intro hfX
    rw [hrm]
    exact archFold_success fails X hfX _ _ _ hX hex

theorem c9_archive_atomicity_witness :
    "dir/alpha-desktop-2021-05-01-100000.json" ∈ pruneListOf treeW rcW ycW ∧
    (((fun p => p == "dir/alpha-desktop-2021-05-01-100000.json")
          "dir/alpha-desktop-2021-05-01-100000.json" = true →
      (∃ f ∈ (runMain false true
          (fun p => p == "dir/alpha-desktop-2021-05-01-100000.json") rcW ycW
          (World.mk treeW none)).1.files,
        f.path = "dir/alpha-desktop-2021-05-01-100000.json") ∧
      (∀ q : FSFile, q.path ≠ "dir/alpha-desktop-2021-05-01-100000.json" →
        (q ∈ (runMain false true
            (fun p => p == "dir/alpha-desktop-2021-05-01-100000.json") rcW ycW
            (World.mk treeW none)).1.files ↔
         q ∈ (runMain false true
            (fun p => if p = "dir/alpha-desktop-2021-05-01-100000.json" then false
              else p == "dir/alpha-desktop-2021-05-01-100000.json") rcW ycW
            (World.mk treeW none)).1.files))) ∧
     ((fun p => p == "dir/alpha-desktop-2021-05-01-100000.json")
          "dir/alpha-desktop-2021-05-01-100000.json" = false →
      (∀ f ∈ (runMain false true
          (fun p => p == "dir/alpha-desktop-2021-05-01-100000.json") rcW ycW
          (World.mk treeW none)).1.files,
        f.path ≠ "dir/alpha-desktop-2021-05-01-100000.json") ∧
      baseName "dir/alpha-desktop-2021-05-01-100000.json" ∈
        (runMain false true
          (fun p => p == "dir/alpha-desktop-2021-05-01-100000.json") rcW ycW
          (World.mk treeW none)).1.archive.getD [])) :=
  ⟨by decide,
   c9_archive_atomicity (World.mk treeW none) rcW ycW
     (fun p => p == "dir/alpha-desktop-2021-05-01-100000.json")
     "dir/alpha-desktop-2021-05-01-100000.json" (by decide)⟩

/-! ### Claim C5: idempotence of the selector -/

/-- C5: running the selector a second time over exactly the files the first
run kept (same cutoffs, no new files) prunes nothing: the second prune-set is
empty.  Requires only that the walk yields each path once. -/
theorem c5_idempotent (fs : List FSFile) (rc yc : DT)
    (hnd : (fs.map FSFile.path).Nodup) :
    pruneSet (fs.filter (fun f => decide (f.path ∈ keepSet fs rc yc))) rc yc = ∅ := by
  have hsnd : ((scan fs).map Cand.path).Nodup := (scan_paths_sublist fs).nodup hnd
  have hscannd : (scan fs).Nodup := hsnd.of_map
  have hpinj : ∀ c ∈ scan fs, ∀ d ∈ scan fs, c.path = d.path → c = d :=
    fun c hc d hd h => List.inj_on_of_nodup_map hsnd hc hd h
  have hL2 : scan (fs.filter (fun f => decide (f.path ∈ keepSet fs rc yc))) =
      (scan fs).filter (fun c => decide (c.path ∈ keepSet fs rc yc)) :=
    scan_filter fs (fun s => decide (s ∈ keepSet fs rc yc))
  -- every entry of the second scan is a first-run candidate whose path is kept
  have hmemcand : ∀ c ∈ (scan fs).filter
      (fun c => decide (c.path ∈ keepSet fs rc yc)),
      c ∈ candidates (scan fs) ∧ c.path ∈ keepSet fs rc yc := by
    intro c hc
    have h1 := List.mem_filter.1 hc
    have hK : c.path ∈ keepSet fs rc yc := by simpa using h1.2
    obtain ⟨d, hd, hdp, -⟩ := keep_forward hK
    have hde : d = c := hpinj d (cand_mem hd).1 c h1.1 hdp
    exact ⟨hde ▸ hd, hK⟩
  have hL2nd : ((scan fs).filter
      (fun c => decide (c.path ∈ keepSet fs rc yc))).Nodup :=
    hscannd.filter _
  have hL2keys : (((scan fs).filter
      (fun c => decide (c.path ∈ keepSet fs rc yc))).map Cand.key).Nodup := by
    refine List.Nodup.map_on ?_ hL2nd
    intro x hx y hy hk
    exact cand_key_inj (hmemcand x hx).1 (hmemcand y hy).1 hk
  have hcand2 : candidates (scan (fs.filter
      (fun f => decide (f.path ∈ keepSet fs rc yc)))) =
      (scan fs).filter (fun c => decide (c.path ∈ keepSet fs rc yc)) := by
    rw [hL2]
    exact candidates_eq_self hL2keys hL2nd
  -- every second-run candidate is kept again
  have hkept2 : ∀ c ∈ (scan fs).filter
      (fun c => decide (c.path ∈ keepSet fs rc yc)),
      c.path ∈ keepSet (fs.filter
        (fun f => decide (f.path ∈ keepSet fs rc yc))) rc yc := by
    intro c hc
    obtain ⟨hccand, hcK⟩ := hmemcand c hc
    obtain ⟨d, hd, hdp, hcase⟩ := keep_forward hcK
    have hde : d = c := hpinj d (cand_mem hd).1 c (cand_mem hccand).1 hdp
    subst hde
    have hc2 : d ∈ candidates (scan (fs.filter
        (fun f => decide (f.path ∈ keepSet fs rc yc)))) := by
      rw [hcand2]
      exact hc
    rcases hcase with hr | ⟨hW, hmin, hqne, hslot⟩ | ⟨hM, hmin, hqne, hslot⟩
    · exact recent_kept hc2 hr
    · refine weekly_strictmax_kept hc2 hW.1 hmin hqne ?_
      intro x hx hxw hxk
      rw [hcand2] at hx
      obtain ⟨hxcand, hxK⟩ := hmemcand x hx
      obtain ⟨e, he, hep, hxcase⟩ := keep_forward hxK
      have hee : e = x := hpinj e (cand_mem he).1 x (cand_mem hxcand).1 hep
      subst hee
      rcases hxcase with hxr | ⟨-, -, -, hxslot⟩ | ⟨hxM, -, -, -⟩
      · exact absurd hxr hxw.1
      · left
        rw [hxk] at hxslot
        rw [hslot] at hxslot
        exact hpinj e (cand_mem hxcand).1 d (cand_mem hccand).1
          (Option.some.inj hxslot).symm
      · exact absurd hxw.2 hxM.1.2
    · refine monthly_strictmax_kept hc2 hM.1 hmin hqne ?_
      intro x hx hxw hxk
      rw [hcand2] at hx
      obtain ⟨hxcand, hxK⟩ := hmemcand x hx
      obtain ⟨e, he, hep, hxcase⟩ := keep_forward hxK
      have hee : e = x := hpinj e (cand_mem he).1 x (cand_mem hxcand).1 hep
      subst hee
      rcases hxcase with hxr | ⟨hxW, -, -, -⟩ | ⟨-, -, -, hxslot⟩
      · exact absurd hxr hxw.1
      · exact absurd hxW.1.2 hxw.2
      · left
        rw [hxk] at hxslot
        rw [hslot] at hxslot
        exact hpinj e (cand_mem hxcand).1 d (cand_mem hccand).1
          (Option.some.inj hxslot).symm
  -- hence the second prune-set is empty
  rw [Finset.eq_empty_iff_forall_not_mem]
  intro q hq
  rw [pruneSet, Finset.mem_sdiff] at hq
  obtain ⟨hqa, hqk⟩ := hq
  unfold allSet allPathsList at hqa
  rw [List.mem_toFinset] at hqa
  obtain ⟨c, hc, hcp⟩ := List.mem_map.1 hqa
  rw [hL2] at hc
  exact hqk (hcp ▸ hkept2 c hc)

theorem c5_idempotent_witness :
    (treeW.map FSFile.path).Nodup ∧
    pruneSet (treeW.filter (fun f => decide (f.path ∈ keepSet treeW rcW ycW)))
      rcW ycW = ∅ :=
  ⟨by decide, c5_idempotent treeW rcW ycW (by decide)⟩
